import Mathlib

/-!
# polygen: image comparison (`image.go`)

A shallow embedding of `Compare`, `FastCompare`, `ConvertToRGBA`, `sqDiff` and
`sqDiffUInt8`, together with the parts of Go's `image`, `image/color`,
`image/draw` and `math` packages they call.

Conventions.
* Go `int`/`int64` values are `Int`; arithmetic that can leave the 64-bit range
  is wrapped with `wrapInt64`.  `uint32`/`uint64` values are `Nat` reduced
  modulo `2 ^ 32` / `2 ^ 64` where the Go operation can wrap.
* A `uint8` is a `Byte` (`Fin 256`); a `[]uint8` is a `List Byte` whose
  capacity is its length.
* A Go run-time panic (slice index out of range, `NewRGBA` on a rectangle
  whose buffer length overflows or cannot be allocated) is `none`.
* `make([]uint8, n)` panics above the run time's `maxAlloc` (`2 ^ 48` bytes on
  amd64) and fails below it when the machine has no `n` bytes left.  The
  functions that allocate take `memLimit`, the largest length the machine can
  still provide, as a parameter.
-/

namespace Polygen

/-! ## Machine integers -/

/-- A Go `uint8`. -/
abbrev Byte := Fin 256

/-- Two's complement reduction of a mathematical integer to the `int64` range. -/
def wrapInt64 (v : Int) : Int := (v + 2 ^ 63) % 2 ^ 64 - 2 ^ 63

/-- Go conversion `int64(v)` of a `uint64` value. -/
def int64OfUint64 (v : Nat) : Int := wrapInt64 (Int.ofNat v)

/-! ## The squared-difference kernels (`image.go`, lines 94-110) -/

/-- Go `sqDiff(x, y uint32) uint32`: `d` is the absolute difference, the
product `d * d` is a `uint32` product, the result is shifted right by 2. -/
def sqDiff (x y : Nat) : Nat :=
  let d := if x > y then x - y else y - x
  (d * d % 2 ^ 32) >>> 2

/-- Go `sqDiffUInt8(x, y uint8) uint64`: both the subtraction and the product
are `uint64` operations (modulo `2 ^ 64`). -/
def sqDiffUInt8 (x y : Byte) : Nat :=
  let d := (x.val + 2 ^ 64 - y.val) % 2 ^ 64
  d * d % 2 ^ 64

/-! ## `float64` conversion, `math.Sqrt`, conversion back to `int64` -/

/-- The `float64` values that occur here: NaN, or the finite number
`± mant / 2 ^ shift`. -/
inductive Float64 where
  | nan : Float64
  | fin (neg : Bool) (mant : Nat) (shift : Nat) : Float64
  deriving DecidableEq, Repr

/-- Round a natural number to 53 significant bits, to nearest, ties to even
(IEEE 754 binary64 has a 53-bit significand). -/
def roundTo53 (n : Nat) : Nat :=
  if n < 2 ^ 53 then n
  else
    let e := Nat.log2 n - 52
    let q := n / 2 ^ e
    let r := n % 2 ^ e
    if 2 ^ e < 2 * r ∨ (2 * r = 2 ^ e ∧ q % 2 = 1) then (q + 1) * 2 ^ e else q * 2 ^ e

/-- Go conversion `float64(n)` of an `int64`: the nearest `float64`. -/
def float64OfInt64 (n : Int) : Float64 :=
  Float64.fin (decide (n < 0)) (roundTo53 n.natAbs) 0

/-- Go `math.Sqrt`: the correctly rounded square root.  `Sqrt(NaN)` and
`Sqrt(x)` for `x < 0` are NaN, `Sqrt(±0) = ±0`.  For `x = mant / 2 ^ shift > 0`
the result is the multiple of the unit in the last place nearest to the real
square root: with `m = mant` (or `2 * mant` when `shift` is odd) and
`h = ⌈shift / 2⌉`, `x = m / 4 ^ h`, the binary exponent of `√m` is
`p = log2 ⌊√m⌋` and the 53-bit significand is `√(m * 4 ^ (52 - p))` rounded to
the nearest integer (a tie cannot occur).  Exact for `m < 2 ^ 106`. -/
def mathSqrt : Float64 → Float64
  | Float64.nan => Float64.nan
  | Float64.fin neg mant shift =>
    if mant = 0 then Float64.fin neg 0 0
    else if neg then Float64.nan
    else
      let m := if shift % 2 = 0 then mant else 2 * mant
      let h := (shift + 1) / 2
      let s := 52 - Nat.log2 (Nat.sqrt m)
      let g := m * 4 ^ s
      let r := Nat.sqrt g
      Float64.fin false (if r * r + r < g then r + 1 else r) (s + h)

/-- Go conversion `int64(f)` of a `float64`: the fraction is discarded
(truncation towards zero).  For NaN and for values outside the `int64` range
the Go specification leaves the result implementation-dependent; the value
modelled is the one of amd64, `-2 ^ 63`. -/
def int64OfFloat64 : Float64 → Int
  | Float64.nan => -(2 ^ 63)
  | Float64.fin neg mant shift =>
    let t : Int := Int.ofNat (mant / 2 ^ shift)
    let v : Int := if neg then -t else t
    if -(2 ^ 63) ≤ v ∧ v < 2 ^ 63 then v else -(2 ^ 63)

/-- The closing expression of both comparators,
`int64(math.Sqrt(float64(accumError)))`. -/
def sqrtScore (accumError : Int) : Int :=
  int64OfFloat64 (mathSqrt (float64OfInt64 accumError))

/-! ## Go's `image` and `image/color` packages -/

/-- Go `image.Point`. -/
structure Point where
  X : Int
  Y : Int
  deriving DecidableEq, Repr

/-- Go `image.Rectangle`; `==` on rectangles compares the four fields. -/
structure Rectangle where
  Min : Point
  Max : Point
  deriving DecidableEq, Repr

/-- Go `Point.In`: `r.Min.X <= p.X && p.X < r.Max.X && r.Min.Y <= p.Y && p.Y < r.Max.Y`. -/
def Point.In (p : Point) (r : Rectangle) : Bool :=
  decide (r.Min.X ≤ p.X) && decide (p.X < r.Max.X) &&
    decide (r.Min.Y ≤ p.Y) && decide (p.Y < r.Max.Y)

/-- Go `Rectangle.Dx`: `r.Max.X - r.Min.X` (an `int` subtraction). -/
def Rectangle.Dx (r : Rectangle) : Int := wrapInt64 (r.Max.X - r.Min.X)

/-- Go `Rectangle.Dy`: `r.Max.Y - r.Min.Y`. -/
def Rectangle.Dy (r : Rectangle) : Int := wrapInt64 (r.Max.Y - r.Min.Y)

/-- Go `Rectangle.Empty`: `r.Min.X >= r.Max.X || r.Min.Y >= r.Max.Y`. -/
def Rectangle.Empty (r : Rectangle) : Bool :=
  decide (r.Min.X ≥ r.Max.X) || decide (r.Min.Y ≥ r.Max.Y)

/-- Go `color.RGBA`: four 8-bit alpha-premultiplied channels. -/
structure Color where
  R : Byte
  G : Byte
  B : Byte
  A : Byte
  deriving DecidableEq, Repr

/-- One channel of Go `color.RGBA.RGBA()`: `r := uint32(c.R); r |= r << 8`. -/
def widen (c : Byte) : Nat := c.val ||| (c.val <<< 8)

/-- Go `color.RGBA.RGBA()`: the four 16-bit channel values, as `uint32`. -/
def Color.RGBA (c : Color) : Nat × Nat × Nat × Nat :=
  (widen c.R, widen c.G, widen c.B, widen c.A)

/-- Go `image.RGBA`: the pixel bytes, the stride between rows and the bounds.
The fields are public, so any combination of values is a value of the type. -/
structure RGBA where
  Pix : List Byte
  Stride : Int
  Rect : Rectangle
  deriving DecidableEq, Repr

/-- Go `(*image.RGBA).Bounds`. -/
def RGBA.Bounds (p : RGBA) : Rectangle := p.Rect

/-- Go `(*image.RGBA).PixOffset`:
`(y-p.Rect.Min.Y)*p.Stride + (x-p.Rect.Min.X)*4`, in `int` arithmetic. -/
def RGBA.PixOffset (p : RGBA) (x y : Int) : Int :=
  wrapInt64 (wrapInt64 (wrapInt64 (y - p.Rect.Min.Y) * p.Stride)
    + wrapInt64 (wrapInt64 (x - p.Rect.Min.X) * 4))

/-- The four bytes `pix[i : i+4]`; `none` when the slice expression panics. -/
def slice4 (pix : List Byte) (i : Int) : Option Color :=
  if i < 0 then none
  else do
    let r ← pix[i.toNat]?
    let g ← pix[i.toNat + 1]?
    let b ← pix[i.toNat + 2]?
    let a ← pix[i.toNat + 3]?
    pure ⟨r, g, b, a⟩

/-- Go `(*image.RGBA).At` (that is `RGBAAt`): the zero colour outside the
bounds, otherwise the four bytes at `PixOffset(x, y)`. -/
def RGBA.At (p : RGBA) (x y : Int) : Option Color :=
  if !(Point.In ⟨x, y⟩ p.Rect) then some ⟨0, 0, 0, 0⟩
  else slice4 p.Pix (p.PixOffset x y)

/-- The values taken by the counter of `for v := lo; v < hi; v++`. -/
def intRange (lo hi : Int) : List Int :=
  (List.range (hi - lo).toNat).map (fun i => lo + Int.ofNat i)

/-! ## `Compare` and `FastCompare` (`image.go`, lines 30-70) -/

/-- The error value of both comparators; its message prints both bounds. -/
structure BoundsError where
  bounds1 : Rectangle
  bounds2 : Rectangle
  deriving DecidableEq, Repr

/-- Line 48 of `image.go`: the `uint32` sum of the four channel terms. -/
def pixelSum (c1 c2 : Color) : Nat :=
  (sqDiff c1.RGBA.1 c2.RGBA.1 + sqDiff c1.RGBA.2.1 c2.RGBA.2.1
    + sqDiff c1.RGBA.2.2.1 c2.RGBA.2.2.1 + sqDiff c1.RGBA.2.2.2 c2.RGBA.2.2.2) % 2 ^ 32

/-- The body of the inner loop of `Compare` (lines 41-49) at `(x, y)`. -/
def compareStep (img1 img2 : RGBA) (y : Int) (accumError : Int) (x : Int) : Option Int := do
  let c1 ← img1.At x y
  let c2 ← img2.At x y
  pure (wrapInt64 (accumError + Int.ofNat (pixelSum c1 c2)))

/-- The value of `accumError` after the two loops of `Compare` (lines 36-51). -/
def CompareAccum (img1 img2 : RGBA) : Option Int :=
  let bounds := img1.Bounds
  (intRange bounds.Min.Y bounds.Max.Y).foldlM
    (fun accumError y =>
      (intRange bounds.Min.X bounds.Max.X).foldlM (compareStep img1 img2 y) accumError)
    0

/-- Go `Compare(img1, img2 *image.RGBA) (int64, error)`; `none` is a panic. -/
def Compare (img1 img2 : RGBA) : Option (Int × Option BoundsError) :=
  if img1.Bounds ≠ img2.Bounds then
    some (0, some ⟨img1.Bounds, img2.Bounds⟩)
  else
    (CompareAccum img1 img2).map (fun accumError => (sqrtScore accumError, none))

/-- The body of the loop of `FastCompare` (line 66) at index `i`. -/
def fastStep (img1 img2 : RGBA) (accumError : Int) (i : Nat) : Option Int := do
  let x ← img1.Pix[i]?
  let y ← img2.Pix[i]?
  pure (wrapInt64 (accumError + int64OfUint64 (sqDiffUInt8 x y)))

/-- The value of `accumError` after the loop of `FastCompare` (lines 63-67). -/
def FastCompareAccum (img1 img2 : RGBA) : Option Int :=
  (List.range img1.Pix.length).foldlM (fastStep img1 img2) 0

/-- Go `FastCompare(img1, img2 *image.RGBA) (int64, error)`; `none` is a panic. -/
def FastCompare (img1 img2 : RGBA) : Option (Int × Option BoundsError) :=
  if img1.Bounds ≠ img2.Bounds then
    some (0, some ⟨img1.Bounds, img2.Bounds⟩)
  else
    (FastCompareAccum img1 img2).map (fun accumError => (sqrtScore accumError, none))

/-! ## `ConvertToRGBA` (`image.go`, lines 72-86) and what it calls -/

/-- Go `image.Image`, split by dynamic type: a `*image.RGBA`, or any other
implementation, given by its bounds and by the channel values its colours
return from `RGBA()` at each coordinate. -/
inductive Image where
  | rgba (p : RGBA) : Image
  | other (bounds : Rectangle) (colorAt : Int → Int → Nat × Nat × Nat × Nat) : Image

/-- Go `Image.Bounds`. -/
def Image.Bounds : Image → Rectangle
  | Image.rgba p => p.Bounds
  | Image.other bounds _ => bounds

/-- The result of `img.At(x, y).RGBA()`; `none` when `At` panics. -/
def Image.channelsAt : Image → Int → Int → Option (Nat × Nat × Nat × Nat)
  | Image.rgba p, x, y => (p.At x y).map Color.RGBA
  | Image.other _ colorAt, x, y => some (colorAt x y)

/-- Go `image.Rect`: the rectangle with the given corners, coordinates swapped
where needed so that `Min <= Max`. -/
def Rect (x0 y0 x1 y1 : Int) : Rectangle :=
  let xs := if x0 > x1 then (x1, x0) else (x0, x1)
  let ys := if y0 > y1 then (y1, y0) else (y0, y1)
  ⟨⟨xs.1, ys.1⟩, ⟨xs.2, ys.2⟩⟩

/-- Go `image.mul3NonNeg`: `x*y*z`, or `-1` when an argument is negative or the
product overflows an `int`. -/
def mul3NonNeg (x y z : Int) : Int :=
  if x < 0 ∨ y < 0 ∨ z < 0 then -1
  else
    let xy := x.toNat * y.toNat
    if xy / 2 ^ 64 ≠ 0 then -1
    else
      let xyz := (xy % 2 ^ 64) * z.toNat
      if xyz / 2 ^ 64 ≠ 0 then -1
      else
        let lo := xyz % 2 ^ 64
        let a := wrapInt64 (Int.ofNat lo)
        if a < 0 ∨ a % 2 ^ 64 ≠ Int.ofNat lo then -1 else a

/-- Go run time `maxAlloc` on amd64: `makeslice` panics (`len out of range`)
when the requested memory is above it. -/
def maxAlloc : Nat := 2 ^ 48

/-- Go `image.NewRGBA`: a zeroed buffer of `4 * Dx * Dy` bytes with stride
`4 * Dx`.  It panics when `pixelBufferLength` finds the length negative, and
`make([]uint8, totalLength)` fails when the length is above `maxAlloc` (panic)
or above `memLimit`, the largest length the machine can provide (out of
memory). -/
def NewRGBA (memLimit : Nat) (r : Rectangle) : Option RGBA :=
  let totalLength := mul3NonNeg 4 r.Dx r.Dy
  if totalLength < 0 then none
  else if Int.ofNat maxAlloc < totalLength then none
  else if Int.ofNat memLimit < totalLength then none
  else some ⟨List.replicate totalLength.toNat 0, wrapInt64 (4 * r.Dx), r⟩

/-- Go `Rectangle.Intersect`. -/
def Rectangle.Intersect (r s : Rectangle) : Rectangle :=
  let t : Rectangle :=
    ⟨⟨if r.Min.X < s.Min.X then s.Min.X else r.Min.X,
      if r.Min.Y < s.Min.Y then s.Min.Y else r.Min.Y⟩,
     ⟨if r.Max.X > s.Max.X then s.Max.X else r.Max.X,
      if r.Max.Y > s.Max.Y then s.Max.Y else r.Max.Y⟩⟩
  if t.Empty then ⟨⟨0, 0⟩, ⟨0, 0⟩⟩ else t

/-- Go `Point.Sub`. -/
def Point.Sub (p q : Point) : Point := ⟨wrapInt64 (p.X - q.X), wrapInt64 (p.Y - q.Y)⟩

/-- Go `Rectangle.Add`: the rectangle translated by `p`. -/
def Rectangle.Add (r : Rectangle) (p : Point) : Rectangle :=
  ⟨⟨wrapInt64 (r.Min.X + p.X), wrapInt64 (r.Min.Y + p.Y)⟩,
   ⟨wrapInt64 (r.Max.X + p.X), wrapInt64 (r.Max.Y + p.Y)⟩⟩

/-- Go `draw.clip` without a mask: `r` clipped to the destination bounds and to
the translated source bounds, and the source point moved along with `r.Min`. -/
def clip (dst : RGBA) (r : Rectangle) (src : Image) (sp : Point) : Rectangle × Point :=
  let orig := r.Min
  let r1 := r.Intersect dst.Bounds
  let r2 := r1.Intersect (src.Bounds.Add (orig.Sub sp))
  let dx := wrapInt64 (r2.Min.X - orig.X)
  let dy := wrapInt64 (r2.Min.Y - orig.Y)
  (r2, ⟨wrapInt64 (sp.X + dx), wrapInt64 (sp.Y + dy)⟩)

/-- One destination byte of `drawRGBA` for `op == Src` and no mask:
`uint8(s * ma / m >> 8)` with `ma = m = 0xffff`, in `uint32` arithmetic. -/
def narrow (s : Nat) : Byte :=
  Fin.ofNat (((s * 0xffff % 2 ^ 32) / 0xffff) >>> 8)

/-- The store `d := dst.Pix[i : i+4 : i+4]; d[0], d[1], d[2], d[3] = ...`;
`none` when the slice expression panics. -/
def store4 (pix : List Byte) (i : Int) (c : Nat × Nat × Nat × Nat) : Option (List Byte) :=
  if i < 0 ∨ Int.ofNat pix.length < i + 4 then none
  else
    some ((((pix.set i.toNat (narrow c.1)).set (i.toNat + 1) (narrow c.2.1)).set
      (i.toNat + 2) (narrow c.2.2.1)).set (i.toNat + 3) (narrow c.2.2.2))

/-- The body of the inner loop of `drawRGBA` at destination pixel `(x, y)`:
the source pixel is at `sp + (x, y) - r.Min`, the destination bytes are at
`PixOffset(x, y)` (the running index `i` of the Go loop). -/
def drawStep (dst : RGBA) (r : Rectangle) (src : Image) (sp : Point) (y : Int)
    (pix : List Byte) (x : Int) : Option (List Byte) := do
  let c ← src.channelsAt (wrapInt64 (sp.X + wrapInt64 (x - r.Min.X)))
    (wrapInt64 (sp.Y + wrapInt64 (y - r.Min.Y)))
  store4 pix (dst.PixOffset x y) c

/-- Go `draw.drawRGBA` for `op == Src`, no mask and a source other than `dst`:
every pixel of `r` is replaced, row by row. -/
def drawRGBA (dst : RGBA) (r : Rectangle) (src : Image) (sp : Point) : Option RGBA := do
  let pix ← (intRange r.Min.Y r.Max.Y).foldlM
    (fun pix y => (intRange r.Min.X r.Max.X).foldlM (drawStep dst r src sp y) pix)
    dst.Pix
  pure { dst with Pix := pix }

/-- Go `draw.Draw(dst, r, src, sp, draw.Src)` for a `*image.RGBA` destination:
clip, return when nothing is left, otherwise draw.  The type-specific fast
paths of `DrawMask` compute the same bytes as the general `drawRGBA`. -/
def Draw (dst : RGBA) (r : Rectangle) (src : Image) (sp : Point) : Option RGBA :=
  let c := clip dst r src sp
  if c.1.Empty then some dst else drawRGBA dst c.1 src c.2

/-- Go `ConvertToRGBA(img image.Image) *image.RGBA`: the argument itself when
its dynamic type is `*image.RGBA`, otherwise a new image of the same size at
the origin, filled by `draw.Draw`; `none` is a panic.  `memLimit` is the
largest buffer length the machine can provide to `image.NewRGBA`. -/
def ConvertToRGBA (memLimit : Nat) (img : Image) : Option RGBA :=
  match img with
  | Image.rgba result => some result
  | Image.other _ _ => do
    let b := img.Bounds
    let result ← NewRGBA memLimit (Rect 0 0 b.Dx b.Dy)
    Draw result result.Bounds img b.Min

/-! ## Specification-side definitions and example images -/

/-- The per-pixel sum of line 48 as a sum of naturals, without reduction. -/
def pixelTerm (c1 c2 : Color) : Nat :=
  sqDiff (widen c1.R) (widen c2.R) + sqDiff (widen c1.G) (widen c2.G)
    + sqDiff (widen c1.B) (widen c2.B) + sqDiff (widen c1.A) (widen c2.A)

/-- The integer part of the correctly rounded square root of the natural
number `v`, as `mathSqrt` followed by `int64OfFloat64` computes it. -/
def truncSqrt (v : Nat) : Nat :=
  let s := 52 - Nat.log2 (Nat.sqrt v)
  let g := v * 4 ^ s
  let r := Nat.sqrt g
  (if r * r + r < g then r + 1 else r) / 2 ^ s

/-- Every pixel of the bounds is backed by four bytes of `Pix`: the invariant
of a well-formed `image.RGBA`, under which `At` cannot panic. -/
def RGBA.InBounds (p : RGBA) : Prop :=
  ∀ x y : Int, Point.In ⟨x, y⟩ p.Rect = true →
    0 ≤ p.PixOffset x y ∧ p.PixOffset x y + 4 ≤ Int.ofNat p.Pix.length

/-- The colour `At` returns, the zero colour where `At` panics. -/
def RGBA.colorAt (p : RGBA) (x y : Int) : Color := (p.At x y).getD ⟨0, 0, 0, 0⟩

/-- The total `T` of the precise comparator: the sum over every coordinate of
the bounds of the four `sqDiff` terms of the two pixels' channel values. -/
def sumSq (a b : RGBA) : Nat :=
  ((intRange a.Rect.Min.Y a.Rect.Max.Y).map (fun y =>
    ((intRange a.Rect.Min.X a.Rect.Max.X).map (fun x =>
      pixelTerm (a.colorAt x y) (b.colorAt x y))).sum)).sum

/-- The number of pixels of a rectangle. -/
def Rectangle.pixelCount (r : Rectangle) : Nat :=
  (r.Max.X - r.Min.X).toNat * (r.Max.Y - r.Min.Y).toNat

/-- The total of the fast comparator: the sum over the byte indices of the
squared difference of the two bytes. -/
def sumSqBytes (a b : RGBA) : Nat :=
  (List.zipWith (fun x y : Byte => Nat.dist x.val y.val ^ 2) a.Pix b.Pix).sum

/-- The rectangle is well-formed (`Min <= Max`) and an RGBA buffer for it can
be allocated: stride and length fit an `int`, and the length `4 * Dx * Dy` is
at most `maxAlloc` and at most `memLimit`, what the machine can provide. -/
def Rectangle.Fits (r : Rectangle) (memLimit : Nat) : Prop :=
  0 ≤ r.Dx ∧ 0 ≤ r.Dy ∧ 4 * r.Dx < 2 ^ 63 ∧ 4 * r.Dx * r.Dy < 2 ^ 63
    ∧ 4 * r.Dx * r.Dy ≤ Int.ofNat maxAlloc ∧ 4 * r.Dx * r.Dy ≤ Int.ofNat memLimit

/-- The image can be converted: it is an RGBA image already, or its bounds are
well-formed and a buffer for them can be allocated. -/
def Image.Fits (img : Image) (memLimit : Nat) : Prop :=
  match img with
  | Image.rgba _ => True
  | Image.other bounds _ => bounds.Fits memLimit

/-- A 2x2 image, every pixel opaque black. -/
def black2x2 : RGBA :=
  ⟨[0, 0, 0, 255, 0, 0, 0, 255, 0, 0, 0, 255, 0, 0, 0, 255], 8, ⟨⟨0, 0⟩, ⟨2, 2⟩⟩⟩

/-- A 2x2 image, every pixel opaque white. -/
def white2x2 : RGBA := ⟨List.replicate 16 255, 8, ⟨⟨0, 0⟩, ⟨2, 2⟩⟩⟩

/-- A 3x3 image, every pixel transparent black. -/
def clear3x3 : RGBA := ⟨List.replicate 36 0, 12, ⟨⟨0, 0⟩, ⟨3, 3⟩⟩⟩

/-- A one-pixel RGBA image whose bounds start at `(1, 1)`. -/
def pixelAt11 : RGBA := ⟨[10, 20, 30, 255], 4, ⟨⟨1, 1⟩, ⟨2, 2⟩⟩⟩

/-- A 2x3 image of another type than RGBA, with bounds starting at `(3, 5)`. -/
def ramp : Image :=
  Image.other ⟨⟨3, 5⟩, ⟨5, 8⟩⟩ (fun x y => ((x * 1000).toNat, (y * 1000).toNat, 0, 65535))

/-- The `w` by `h` image at the origin, row-major without padding, all of
whose bytes are `v`. -/
def uniform (w h : Nat) (v : Byte) : RGBA :=
  ⟨List.replicate (4 * w * h) v, 4 * Int.ofNat w, ⟨⟨0, 0⟩, ⟨Int.ofNat w, Int.ofNat h⟩⟩⟩

/-- The `w` by `h` image at the origin, row-major without padding, whose first
pixel is `(r, 0, 0, 0)` and all of whose other bytes are `v`. -/
def headImage (w h : Nat) (r v : Byte) : RGBA :=
  ⟨r :: 0 :: 0 :: 0 :: List.replicate (4 * (w * h - 1)) v, 4 * Int.ofNat w,
    ⟨⟨0, 0⟩, ⟨Int.ofNat w, Int.ofNat h⟩⟩⟩

/-- A 2x2 image, white except for the red byte 250 of its first pixel. -/
def nearWhite2x2 : RGBA := ⟨250 :: List.replicate 15 255, 8, ⟨⟨0, 0⟩, ⟨2, 2⟩⟩⟩

/-- A 2x2 image, white except for the red byte 100 of its first pixel. -/
def farWhite2x2 : RGBA := ⟨100 :: List.replicate 15 255, 8, ⟨⟨0, 0⟩, ⟨2, 2⟩⟩⟩

/-- Go `(*image.RGBA).SubImage`: the part of `p` inside `r`, sharing the pixel
buffer of `p` from the offset of the new origin on, and the stride of `p`;
`none` when the slice expression `p.Pix[i:]` panics. -/
def RGBA.SubImage (p : RGBA) (r : Rectangle) : Option RGBA :=
  let r' := r.Intersect p.Rect
  if r'.Empty then some ⟨[], 0, ⟨⟨0, 0⟩, ⟨0, 0⟩⟩⟩
  else
    let i := p.PixOffset r'.Min.X r'.Min.Y
    if i < 0 ∨ Int.ofNat p.Pix.length < i then none
    else some ⟨p.Pix.drop i.toNat, p.Stride, r'⟩

/-- The 1x1 image with the red byte 1, opaque. -/
def redOne : RGBA := ⟨[1, 0, 0, 255], 4, ⟨⟨0, 0⟩, ⟨1, 1⟩⟩⟩

/-- The 1x1 image with the red byte 0, opaque. -/
def redZero : RGBA := ⟨[0, 0, 0, 255], 4, ⟨⟨0, 0⟩, ⟨1, 1⟩⟩⟩

/-- The 1x1 opaque white image. -/
def white1x1 : RGBA := ⟨List.replicate 4 255, 4, ⟨⟨0, 0⟩, ⟨1, 1⟩⟩⟩

/-- The top left pixel of `white2x2` as `SubImage` returns it: bounds
`(0,0)-(1,1)`, the 16 bytes and the stride 8 of `white2x2`. -/
def whiteCorner : RGBA := ⟨List.replicate 16 255, 8, ⟨⟨0, 0⟩, ⟨1, 1⟩⟩⟩

/-- An ill-formed RGBA image: bounds of 2x2 pixels and a stride of 8, over a
buffer that holds the first pixel only. -/
def truncated2x2 : RGBA := ⟨[255, 255, 255, 255], 8, ⟨⟨0, 0⟩, ⟨2, 2⟩⟩⟩

/-- An image that is not an RGBA image, with the bounds of Go `image.Uniform`,
`(-1e9, -1e9)-(1e9, 1e9)`, every pixel opaque white. -/
def uniformWhite : Image :=
  Image.other ⟨⟨-1000000000, -1000000000⟩, ⟨1000000000, 1000000000⟩⟩
    (fun _ _ => (65535, 65535, 65535, 65535))

/-- An image that is not an RGBA image, with bounds `(0, 0)-(2^25, 2^25)`: the
buffer length `2 ^ 52` fits an `int` and is above `maxAlloc`. -/
def wideBlack : Image :=
  Image.other ⟨⟨0, 0⟩, ⟨33554432, 33554432⟩⟩ (fun _ _ => (0, 0, 0, 65535))

/-- A canonical RGBA buffer: well-formed bounds, rows without padding (the
stride is 4 * width) and a buffer of exactly width * height * 4 bytes. -/
def RGBA.Canonical (p : RGBA) : Prop :=
  p.Rect.Min.X ≤ p.Rect.Max.X ∧ p.Rect.Min.Y ≤ p.Rect.Max.Y ∧
  p.Stride = 4 * (p.Rect.Max.X - p.Rect.Min.X) ∧
  Int.ofNat p.Pix.length = 4 * (p.Rect.Max.X - p.Rect.Min.X) * (p.Rect.Max.Y - p.Rect.Min.Y)

/-- The coordinates of a rectangle in the order in which the two loops of
`Compare` visit them: row by row, each row from left to right. -/
def coords (r : Rectangle) : List (Int × Int) :=
  (intRange r.Min.Y r.Max.Y).flatMap (fun y => (intRange r.Min.X r.Max.X).map (fun x => (x, y)))

/-- The value of `accumError` in `Compare` after the first `n` executions of
the loop body. -/
def compareAccumAfter (img1 img2 : RGBA) (n : Nat) : Option Int :=
  ((coords img1.Bounds).take n).foldlM
    (fun accumError p => compareStep img1 img2 p.2 accumError p.1) 0

/-- The exact sum of the per-pixel terms of the first `n` coordinates. -/
def comparePartial (img1 img2 : RGBA) (n : Nat) : Nat :=
  (((coords img1.Bounds).take n).map
    (fun p => pixelTerm (img1.colorAt p.1 p.2) (img2.colorAt p.1 p.2))).sum

/-- The value of `accumError` in `FastCompare` after the first `n` executions
of the loop body. -/
def fastAccumAfter (img1 img2 : RGBA) (n : Nat) : Option Int :=
  ((List.range img1.Pix.length).take n).foldlM (fastStep img1 img2) 0

/-- The exact sum of the squared byte differences of the first `n` indices. -/
def fastPartial (img1 img2 : RGBA) (n : Nat) : Nat :=
  (((List.range img1.Pix.length).take n).map
    (fun i => Nat.dist (img1.Pix.getD i 0).val (img2.Pix.getD i 0).val ^ 2)).sum

/-! ## Machine arithmetic -/

theorem wrapInt64_of_range (v : Int) (h0 : -(2 ^ 63) ≤ v) (h1 : v < 2 ^ 63) :
    wrapInt64 v = v := by
  unfold wrapInt64; omega

theorem wrapInt64_add_wrap (a b : Int) :
    wrapInt64 (wrapInt64 a + b) = wrapInt64 (a + b) := by
  unfold wrapInt64; omega

theorem widen_eq (c : Byte) : widen c = 257 * c.val := by
  have h : c.val <<< 8 = 2 ^ 8 * c.val := by
    rw [Nat.shiftLeft_eq, Nat.mul_comm]
  unfold widen
  rw [Nat.lor_comm, h, ← Nat.mul_add_lt_is_or c.isLt]
  omega

theorem widen_le (c : Byte) : widen c ≤ 65535 := by
  rw [widen_eq]; omega

theorem sqDiff_comm (x y : Nat) : sqDiff x y = sqDiff y x := by
  unfold sqDiff
  rcases Nat.lt_trichotomy x y with h | h | h
  · simp [h, Nat.not_lt.2 (Nat.le_of_lt h)]
  · simp [h]
  · simp [h, Nat.not_lt.2 (Nat.le_of_lt h)]

theorem sqDiff_eq (x y : Nat) (hx : x ≤ 65535) (hy : y ≤ 65535) :
    sqDiff x y = Nat.dist x y * Nat.dist x y / 4 := by
  have hdist : (if x > y then x - y else y - x) = Nat.dist x y := by
    unfold Nat.dist; split <;> omega
  unfold sqDiff
  simp only [hdist]
  have hd : Nat.dist x y ≤ 65535 := by unfold Nat.dist; omega
  have hdd : Nat.dist x y * Nat.dist x y ≤ 65535 * 65535 := Nat.mul_le_mul hd hd
  rw [Nat.mod_eq_of_lt (by omega), Nat.shiftRight_eq_div_pow]

theorem sqDiff_le (x y : Nat) (hx : x ≤ 65535) (hy : y ≤ 65535) :
    sqDiff x y ≤ 1073709056 := by
  rw [sqDiff_eq x y hx hy]
  have hd : Nat.dist x y ≤ 65535 := by unfold Nat.dist; omega
  have hdd : Nat.dist x y * Nat.dist x y ≤ 65535 * 65535 := Nat.mul_le_mul hd hd
  omega

theorem pixelTerm_le (c1 c2 : Color) : pixelTerm c1 c2 ≤ 4294836224 := by
  have h1 := sqDiff_le _ _ (widen_le c1.R) (widen_le c2.R)
  have h2 := sqDiff_le _ _ (widen_le c1.G) (widen_le c2.G)
  have h3 := sqDiff_le _ _ (widen_le c1.B) (widen_le c2.B)
  have h4 := sqDiff_le _ _ (widen_le c1.A) (widen_le c2.A)
  unfold pixelTerm; omega

theorem pixelSum_eq (c1 c2 : Color) : pixelSum c1 c2 = pixelTerm c1 c2 := by
  have h := pixelTerm_le c1 c2
  show pixelTerm c1 c2 % 2 ^ 32 = pixelTerm c1 c2
  exact Nat.mod_eq_of_lt (by omega)

theorem pixelTerm_comm (c1 c2 : Color) : pixelTerm c1 c2 = pixelTerm c2 c1 := by
  unfold pixelTerm
  rw [sqDiff_comm (widen c1.R), sqDiff_comm (widen c1.G), sqDiff_comm (widen c1.B),
    sqDiff_comm (widen c1.A)]

theorem sqDiff_self (x : Nat) : sqDiff x x = 0 := by
  simp [sqDiff]

theorem pixelTerm_self (c : Color) : pixelTerm c c = 0 := by
  simp [pixelTerm, sqDiff_self]

theorem sqDiffUInt8_eq (x y : Byte) : sqDiffUInt8 x y = Nat.dist x.val y.val * Nat.dist x.val y.val := by
  have hx := x.isLt
  have hy := y.isLt
  unfold sqDiffUInt8
  simp only []
  rcases Nat.lt_or_ge x.val y.val with h | h
  · have hd : Nat.dist x.val y.val = y.val - x.val := by unfold Nat.dist; omega
    have hk : y.val - x.val < 256 := by omega
    have h1 : (x.val + 2 ^ 64 - y.val) % 2 ^ 64 = 2 ^ 64 - (y.val - x.val) := by omega
    rw [hd, h1]
    generalize y.val - x.val = k at hk
    have e : (2 ^ 64 - k) * (2 ^ 64 - k) = k * k + 2 ^ 64 * (2 ^ 64 - 2 * k) := by
      zify [show k ≤ 2 ^ 64 by omega, show 2 * k ≤ 2 ^ 64 by omega]; ring
    have : k * k ≤ 255 * 255 := Nat.mul_le_mul (by omega) (by omega)
    rw [e, Nat.add_mul_mod_self_left]
    exact Nat.mod_eq_of_lt (by omega)
  · have hd : Nat.dist x.val y.val = x.val - y.val := by unfold Nat.dist; omega
    have hk : x.val - y.val < 256 := by omega
    have h1 : (x.val + 2 ^ 64 - y.val) % 2 ^ 64 = x.val - y.val := by omega
    rw [hd, h1]
    generalize x.val - y.val = k at hk
    have : k * k ≤ 255 * 255 := Nat.mul_le_mul (by omega) (by omega)
    exact Nat.mod_eq_of_lt (by omega)

theorem sqDiffUInt8_le (x y : Byte) : sqDiffUInt8 x y ≤ 65025 := by
  rw [sqDiffUInt8_eq]
  have hd : Nat.dist x.val y.val ≤ 255 := by unfold Nat.dist; omega
  exact Nat.mul_le_mul hd hd

theorem int64OfUint64_sqDiffUInt8 (x y : Byte) :
    int64OfUint64 (sqDiffUInt8 x y) = Int.ofNat (sqDiffUInt8 x y) := by
  have h := sqDiffUInt8_le x y
  unfold int64OfUint64
  apply wrapInt64_of_range <;> simp only [Int.ofNat_eq_coe] <;> omega

theorem sqDiffUInt8_self (x : Byte) : sqDiffUInt8 x x = 0 := by
  rw [sqDiffUInt8_eq]; simp [Nat.dist]

/-! ## Square root through `float64` -/

theorem log2_eq_of (n k : Nat) (h1 : 2 ^ k ≤ n) (h2 : n < 2 ^ (k + 1)) : Nat.log2 n = k := by
  have hn : n ≠ 0 := by
    have := Nat.pow_pos (n := k) (Nat.succ_pos 1)
    omega
  have a := (Nat.le_log2 hn).2 h1
  have b := (Nat.log2_lt hn).2 h2
  omega

theorem four_pow (s : Nat) : 4 ^ s = 2 ^ s * 2 ^ s := by
  rw [← Nat.mul_pow]

/-- The scaled root lies between `⌊√v⌋ * S` and `(⌊√v⌋ + 1) * S`. -/
theorem sqrt_scaled_bounds (v S : Nat) (hS : 0 < S) :
    Nat.sqrt v * S ≤ Nat.sqrt (v * (S * S)) ∧ Nat.sqrt (v * (S * S)) < (Nat.sqrt v + 1) * S := by
  constructor
  · rw [Nat.le_sqrt]
    calc Nat.sqrt v * S * (Nat.sqrt v * S) = (Nat.sqrt v * Nat.sqrt v) * (S * S) := by ring
      _ ≤ v * (S * S) := Nat.mul_le_mul_right _ (Nat.sqrt_le v)
  · rw [Nat.sqrt_lt]
    calc v * (S * S) < ((Nat.sqrt v + 1) * (Nat.sqrt v + 1)) * (S * S) :=
          Nat.mul_lt_mul_of_pos_right (Nat.lt_succ_sqrt v) (Nat.mul_pos hS hS)
      _ = (Nat.sqrt v + 1) * S * ((Nat.sqrt v + 1) * S) := by ring

theorem truncSqrt_ge (v : Nat) : Nat.sqrt v ≤ truncSqrt v := by
  unfold truncSqrt
  simp only [four_pow]
  have hS : 0 < 2 ^ (52 - Nat.log2 (Nat.sqrt v)) := Nat.pow_pos (Nat.succ_pos 1)
  generalize 2 ^ (52 - Nat.log2 (Nat.sqrt v)) = S at hS
  have h := (sqrt_scaled_bounds v S hS).1
  rw [Nat.le_div_iff_mul_le hS]
  split <;> omega

theorem truncSqrt_le (v : Nat) : truncSqrt v ≤ Nat.sqrt v + 1 := by
  unfold truncSqrt
  simp only [four_pow]
  have hS : 0 < 2 ^ (52 - Nat.log2 (Nat.sqrt v)) := Nat.pow_pos (Nat.succ_pos 1)
  generalize 2 ^ (52 - Nat.log2 (Nat.sqrt v)) = S at hS
  have h := (sqrt_scaled_bounds v S hS).2
  apply Nat.div_le_of_le_mul
  rw [Nat.mul_comm (Nat.sqrt v + 1) S] at h
  split <;> omega

/-- Rounding the root of `g` to the nearest integer is monotone in `g`. -/
theorem roundSqrt_mono (g g' : Nat) (h : g ≤ g') :
    (if Nat.sqrt g * Nat.sqrt g + Nat.sqrt g < g then Nat.sqrt g + 1 else Nat.sqrt g)
      ≤ (if Nat.sqrt g' * Nat.sqrt g' + Nat.sqrt g' < g' then Nat.sqrt g' + 1 else Nat.sqrt g') := by
  have hr := Nat.sqrt_le_sqrt h
  rcases Nat.lt_or_ge (Nat.sqrt g) (Nat.sqrt g') with hlt | hge
  · split <;> split <;> omega
  · have he : Nat.sqrt g = Nat.sqrt g' := Nat.le_antisymm hr hge
    rw [he]
    split <;> split <;> omega

theorem truncSqrt_mono (v w : Nat) (h : v ≤ w) : truncSqrt v ≤ truncSqrt w := by
  have hk := Nat.sqrt_le_sqrt h
  rcases Nat.lt_or_ge (Nat.sqrt v) (Nat.sqrt w) with hlt | hge
  · have a := truncSqrt_le v
    have b := truncSqrt_ge w
    omega
  · have he : Nat.sqrt v = Nat.sqrt w := Nat.le_antisymm hk hge
    unfold truncSqrt
    simp only [he]
    exact Nat.div_le_div_right (roundSqrt_mono _ _ (Nat.mul_le_mul_right _ h))

theorem truncSqrt_eq_sqrt (v : Nat) (hv : v < 2 ^ 52) : truncSqrt v = Nat.sqrt v := by
  apply Nat.le_antisymm _ (truncSqrt_ge v)
  have hk : Nat.sqrt v < 2 ^ 26 := by
    rw [Nat.sqrt_lt]; exact lt_of_lt_of_le hv (by norm_num)
  have hp : Nat.log2 (Nat.sqrt v) ≤ 25 := by
    rcases Nat.eq_zero_or_pos (Nat.sqrt v) with h0 | h0
    · rw [h0]; simp [Nat.log2_zero]
    · have := (Nat.log2_lt (Nat.pos_iff_ne_zero.1 h0)).2 hk
      omega
  have hkS : Nat.sqrt v + 1 ≤ 2 ^ (52 - Nat.log2 (Nat.sqrt v)) := by
    have h1 : Nat.sqrt v < 2 ^ (Nat.log2 (Nat.sqrt v) + 1) := Nat.lt_log2_self
    have h2 : 2 ^ (Nat.log2 (Nat.sqrt v) + 1) ≤ 2 ^ (52 - Nat.log2 (Nat.sqrt v)) :=
      Nat.pow_le_pow_right (by norm_num) (by omega)
    omega
  unfold truncSqrt
  simp only [four_pow]
  have hS : 0 < 2 ^ (52 - Nat.log2 (Nat.sqrt v)) := Nat.pow_pos (Nat.succ_pos 1)
  generalize 2 ^ (52 - Nat.log2 (Nat.sqrt v)) = S at hS hkS
  have hb := (sqrt_scaled_bounds v S hS).2
  generalize hr : Nat.sqrt (v * (S * S)) = r at hb
  generalize hkk : Nat.sqrt v = k at hb hkS hk
  have hvk : v + 1 ≤ (k + 1) * (k + 1) := by rw [← hkk]; exact Nat.succ_le_succ_sqrt v
  -- the rounded significand stays below `(k + 1) * S`
  have hm : (if r * r + r < v * (S * S) then r + 1 else r) < (k + 1) * S := by
    split
    · rename_i hlt
      by_contra hcon
      have hrr : r + 1 = (k + 1) * S := by omega
      have h1 : (v + 1) * (S * S) ≤ (k + 1) * (k + 1) * (S * S) := Nat.mul_le_mul_right _ hvk
      have h2 : (k + 1) * (k + 1) * (S * S) = (r + 1) * (r + 1) := by rw [hrr]; ring
      have h3 : (k + 1) * S ≤ S * S := Nat.mul_le_mul_right _ hkS
      nlinarith
    · exact hb
  rw [Nat.lt_succ_iff.symm]
  exact (Nat.div_lt_iff_lt_mul hS).2 hm

theorem roundTo53_of_lt (n : Nat) (h : n < 2 ^ 53) : roundTo53 n = n := by
  unfold roundTo53; rw [if_pos h]

/-- With `E = 2 ^ (log2 n - 52)`, a number `n ≥ 2 ^ 53` lies in `[2 ^ 52 * E, 2 ^ 53 * E)`. -/
theorem binade_bounds (n : Nat) (h : 2 ^ 53 ≤ n) :
    2 ^ 52 * 2 ^ (Nat.log2 n - 52) ≤ n ∧ n < 2 ^ 53 * 2 ^ (Nat.log2 n - 52) := by
  have hn : n ≠ 0 := by
    have : 0 < 2 ^ 53 := Nat.pow_pos (Nat.succ_pos 1)
    omega
  have hl : 53 ≤ Nat.log2 n := (Nat.le_log2 hn).2 h
  have h1 := Nat.log2_self_le hn
  have h2 := Nat.lt_log2_self (n := n)
  have e1 : 2 ^ 52 * 2 ^ (Nat.log2 n - 52) = 2 ^ Nat.log2 n := by
    rw [← Nat.pow_add]; congr 1; omega
  have e2 : 2 ^ 53 * 2 ^ (Nat.log2 n - 52) = 2 ^ (Nat.log2 n + 1) := by
    rw [← Nat.pow_add]; congr 1; omega
  rw [e1, e2]; exact ⟨h1, h2⟩

/-- The shape of `roundTo53 n` for `n ≥ 2 ^ 53`: the quotient by the unit `E`,
possibly plus one, times `E`. -/
theorem roundTo53_cases (n : Nat) (h : 2 ^ 53 ≤ n) :
    roundTo53 n = n / 2 ^ (Nat.log2 n - 52) * 2 ^ (Nat.log2 n - 52) ∨
    roundTo53 n = n / 2 ^ (Nat.log2 n - 52) * 2 ^ (Nat.log2 n - 52) + 2 ^ (Nat.log2 n - 52) := by
  unfold roundTo53
  rw [if_neg (show ¬ n < 2 ^ 53 by omega)]
  simp only []
  split
  · right; rw [Nat.succ_mul]
  · left; rfl

theorem roundTo53_bounds (n : Nat) (h : 2 ^ 53 ≤ n) :
    2 ^ 52 * 2 ^ (Nat.log2 n - 52) ≤ roundTo53 n ∧
      roundTo53 n ≤ 2 ^ 53 * 2 ^ (Nat.log2 n - 52) := by
  obtain ⟨h1, h2⟩ := binade_bounds n h
  have hE : 0 < 2 ^ (Nat.log2 n - 52) := Nat.pow_pos (Nat.succ_pos 1)
  have hc := roundTo53_cases n h
  generalize 2 ^ (Nat.log2 n - 52) = E at h1 h2 hE hc ⊢
  have hq1 : 2 ^ 52 ≤ n / E := (Nat.le_div_iff_mul_le hE).2 h1
  have hq2 : n / E < 2 ^ 53 := (Nat.div_lt_iff_lt_mul hE).2 h2
  have hq3 : 2 ^ 52 * E ≤ n / E * E := Nat.mul_le_mul_right _ hq1
  have hq4 : (n / E + 1) * E ≤ 2 ^ 53 * E := Nat.mul_le_mul_right _ hq2
  rw [Nat.succ_mul] at hq4
  rcases hc with hc | hc <;> omega

theorem roundTo53_pos (n : Nat) (h : 0 < n) : 0 < roundTo53 n := by
  rcases Nat.lt_or_ge n (2 ^ 53) with h1 | h1
  · rw [roundTo53_of_lt n h1]; exact h
  · have hb := (roundTo53_bounds n h1).1
    have hE : 0 < 2 ^ 52 * 2 ^ (Nat.log2 n - 52) :=
      Nat.mul_pos (Nat.pow_pos (Nat.succ_pos 1)) (Nat.pow_pos (Nat.succ_pos 1))
    omega

theorem roundTo53_le (n : Nat) (h : n < 2 ^ 63) : roundTo53 n ≤ 2 ^ 63 := by
  rcases Nat.lt_or_ge n (2 ^ 53) with h1 | h1
  · rw [roundTo53_of_lt n h1]; omega
  · have hb := (roundTo53_bounds n h1).2
    have hn : n ≠ 0 := by
      have : 0 < 2 ^ 53 := Nat.pow_pos (Nat.succ_pos 1)
      omega
    have hl : Nat.log2 n < 63 := (Nat.log2_lt hn).2 h
    have he : 2 ^ 53 * 2 ^ (Nat.log2 n - 52) ≤ 2 ^ 53 * 2 ^ 10 :=
      Nat.mul_le_mul_left _ (Nat.pow_le_pow_right (by norm_num) (by omega))
    have : (2 : Nat) ^ 53 * 2 ^ 10 = 2 ^ 63 := by norm_num
    omega

theorem roundTo53_mono (n m : Nat) (h : n ≤ m) : roundTo53 n ≤ roundTo53 m := by
  rcases Nat.lt_or_ge m (2 ^ 53) with hm | hm
  · rw [roundTo53_of_lt m hm, roundTo53_of_lt n (by omega)]; exact h
  rcases Nat.lt_or_ge n (2 ^ 53) with hn | hn
  · rw [roundTo53_of_lt n hn]
    have hb := (roundTo53_bounds m hm).1
    have hE : 2 ^ 52 * 2 ≤ 2 ^ 52 * 2 ^ (Nat.log2 m - 52) := by
      apply Nat.mul_le_mul_left
      have hm0 : m ≠ 0 := by
        have : 0 < 2 ^ 53 := Nat.pow_pos (Nat.succ_pos 1)
        omega
      have hl : 53 ≤ Nat.log2 m := (Nat.le_log2 hm0).2 hm
      calc 2 = 2 ^ 1 := by norm_num
        _ ≤ 2 ^ (Nat.log2 m - 52) := Nat.pow_le_pow_right (by norm_num) (by omega)
    have : (2 : Nat) ^ 52 * 2 = 2 ^ 53 := by norm_num
    omega
  have hn0 : n ≠ 0 := by
    have : 0 < 2 ^ 53 := Nat.pow_pos (Nat.succ_pos 1)
    omega
  have hm0 : m ≠ 0 := by omega
  have hll : Nat.log2 n ≤ Nat.log2 m := by
    rw [Nat.le_log2 hm0]; exact le_trans (Nat.log2_self_le hn0) h
  rcases Nat.lt_or_ge (Nat.log2 n) (Nat.log2 m) with hlt | hge
  · have hb1 := (roundTo53_bounds n hn).2
    have hb2 := (roundTo53_bounds m hm).1
    have hl : 53 ≤ Nat.log2 n := (Nat.le_log2 hn0).2 hn
    have : 2 ^ 53 * 2 ^ (Nat.log2 n - 52) ≤ 2 ^ 52 * 2 ^ (Nat.log2 m - 52) := by
      rw [← Nat.pow_add, ← Nat.pow_add]
      exact Nat.pow_le_pow_right (by norm_num) (by omega)
    omega
  · have he : Nat.log2 n = Nat.log2 m := Nat.le_antisymm hll hge
    unfold roundTo53
    rw [if_neg (show ¬ n < 2 ^ 53 by omega), if_neg (show ¬ m < 2 ^ 53 by omega)]
    simp only [he]
    have hE : 0 < 2 ^ (Nat.log2 m - 52) := Nat.pow_pos (Nat.succ_pos 1)
    generalize 2 ^ (Nat.log2 m - 52) = E at hE ⊢
    have hq : n / E ≤ m / E := Nat.div_le_div_right h
    have dn := Nat.div_add_mod n E
    have dm := Nat.div_add_mod m E
    have rn := Nat.mod_lt n hE
    have rm := Nat.mod_lt m hE
    rw [Nat.mul_comm] at dn dm
    rcases Nat.lt_or_ge (n / E) (m / E) with hq1 | hq1
    · have : (n / E + 1) * E ≤ m / E * E := Nat.mul_le_mul_right _ hq1
      simp only [Nat.add_mul, Nat.one_mul] at this ⊢
      split <;> split <;> omega
    · have heq : n / E = m / E := Nat.le_antisymm hq hq1
      rw [heq] at dn ⊢
      simp only [Nat.add_mul, Nat.one_mul]
      split <;> split <;> omega

theorem truncSqrt_zero : truncSqrt 0 = 0 := by
  simp [truncSqrt]

theorem truncSqrt_lt (v : Nat) (h : v ≤ 2 ^ 63) : truncSqrt v < 2 ^ 32 := by
  have h1 := truncSqrt_le v
  have h2 : Nat.sqrt v < 2 ^ 32 - 1 := by
    rw [Nat.sqrt_lt]; exact lt_of_le_of_lt h (by norm_num)
  omega

/-- The closing expression on a non-negative accumulator below `2 ^ 63`. -/
theorem sqrtScore_ofNat (n : Nat) (h : n < 2 ^ 63) :
    sqrtScore (Int.ofNat n) = Int.ofNat (truncSqrt (roundTo53 n)) := by
  have hlt := truncSqrt_lt (roundTo53 n) (roundTo53_le n h)
  have hneg : decide (Int.ofNat n < 0) = false := by simp
  unfold sqrtScore float64OfInt64
  rw [hneg, show (Int.ofNat n).natAbs = n from rfl]
  simp only [mathSqrt]
  by_cases h0 : roundTo53 n = 0
  · rw [if_pos h0, h0, truncSqrt_zero]
    simp [int64OfFloat64]
  · rw [if_neg h0]
    simp only [Bool.false_eq_true, if_false, Nat.zero_mod, if_true]
    unfold int64OfFloat64
    simp only [Bool.false_eq_true, if_false]
    have e : (if Nat.sqrt (roundTo53 n * 4 ^ (52 - Nat.log2 (Nat.sqrt (roundTo53 n)))) *
            Nat.sqrt (roundTo53 n * 4 ^ (52 - Nat.log2 (Nat.sqrt (roundTo53 n)))) +
            Nat.sqrt (roundTo53 n * 4 ^ (52 - Nat.log2 (Nat.sqrt (roundTo53 n)))) <
          roundTo53 n * 4 ^ (52 - Nat.log2 (Nat.sqrt (roundTo53 n)))
        then Nat.sqrt (roundTo53 n * 4 ^ (52 - Nat.log2 (Nat.sqrt (roundTo53 n)))) + 1
        else Nat.sqrt (roundTo53 n * 4 ^ (52 - Nat.log2 (Nat.sqrt (roundTo53 n))))) /
        2 ^ (52 - Nat.log2 (Nat.sqrt (roundTo53 n)) + (0 + 1) / 2) = truncSqrt (roundTo53 n) := by
      unfold truncSqrt; simp
    rw [e]
    rw [if_pos]
    constructor
    · have : (0 : Int) ≤ Int.ofNat (truncSqrt (roundTo53 n)) := Int.ofNat_nonneg _
      omega
    · have : Int.ofNat (truncSqrt (roundTo53 n)) < 2 ^ 32 := by
        simp only [Int.ofNat_eq_coe]; exact_mod_cast hlt
      omega

theorem sqrtScore_eq_sqrt (n : Nat) (h : n < 2 ^ 52) :
    sqrtScore (Int.ofNat n) = Int.ofNat (Nat.sqrt n) := by
  rw [sqrtScore_ofNat n (lt_trans h (by norm_num)),
    roundTo53_of_lt n (lt_trans h (by norm_num)), truncSqrt_eq_sqrt n h]

theorem sqrtScore_mono (a b : Nat) (h : a ≤ b) (hb : b < 2 ^ 63) :
    sqrtScore (Int.ofNat a) ≤ sqrtScore (Int.ofNat b) := by
  rw [sqrtScore_ofNat a (lt_of_le_of_lt h hb), sqrtScore_ofNat b hb]
  exact Int.ofNat_le.2 (truncSqrt_mono _ _ (roundTo53_mono a b h))

theorem sqrtScore_nonneg (n : Nat) (h : n < 2 ^ 63) : 0 ≤ sqrtScore (Int.ofNat n) := by
  rw [sqrtScore_ofNat n h]; exact Int.ofNat_nonneg _

theorem sqrtScore_zero : sqrtScore 0 = 0 := by
  have := sqrtScore_eq_sqrt 0 (by norm_num)
  simpa using this

theorem sqrtScore_of_neg (v : Int) (h : v < 0) : sqrtScore v = -(2 ^ 63) := by
  have hneg : decide (v < 0) = true := by simp [h]
  have hpos : roundTo53 v.natAbs ≠ 0 :=
    Nat.pos_iff_ne_zero.1 (roundTo53_pos _ (Int.natAbs_pos.2 (by omega)))
  unfold sqrtScore float64OfInt64
  rw [hneg]
  simp only [mathSqrt]
  rw [if_neg hpos]
  simp [int64OfFloat64]

/-! ## Loops -/

theorem mem_intRange (lo hi v : Int) : v ∈ intRange lo hi ↔ lo ≤ v ∧ v < hi := by
  unfold intRange
  simp only [List.mem_map, List.mem_range, Int.ofNat_eq_coe]
  constructor
  · rintro ⟨i, hi1, rfl⟩
    omega
  · intro h
    exact ⟨(v - lo).toNat, by omega, by omega⟩

theorem length_intRange (lo hi : Int) : (intRange lo hi).length = (hi - lo).toNat := by
  simp [intRange]

/-- A loop whose body adds `g x` to a wrapped accumulator ends with the wrapped
total. -/
theorem foldlM_wrap_sum {α : Type} (l : List α) (g : α → Nat) (step : Int → α → Option Int)
    (hstep : ∀ acc x, x ∈ l → wrapInt64 acc = acc →
      step acc x = some (wrapInt64 (acc + Int.ofNat (g x))))
    (acc : Int) (hacc : wrapInt64 acc = acc) :
    l.foldlM step acc = some (wrapInt64 (acc + Int.ofNat (l.map g).sum)) := by
  induction l generalizing acc with
  | nil => simp [hacc]
  | cons x xs ih =>
    rw [List.foldlM_cons, hstep acc x (List.mem_cons_self _ _) hacc]
    simp only [Option.bind_eq_bind, Option.some_bind]
    rw [ih (fun acc y hy => hstep acc y (List.mem_cons_of_mem _ hy)) _
      (by unfold wrapInt64; omega)]
    rw [wrapInt64_add_wrap]
    simp only [List.map_cons, List.sum_cons, Int.ofNat_eq_coe, Nat.cast_add]
    rw [Int.add_assoc]

theorem slice4_isSome (pix : List Byte) (i : Int) (h0 : 0 ≤ i)
    (h1 : i + 4 ≤ Int.ofNat pix.length) : ∃ c, slice4 pix i = some c := by
  have e0 : i.toNat < pix.length := by simp only [Int.ofNat_eq_coe] at h1; omega
  have e1 : i.toNat + 1 < pix.length := by simp only [Int.ofNat_eq_coe] at h1; omega
  have e2 : i.toNat + 2 < pix.length := by simp only [Int.ofNat_eq_coe] at h1; omega
  have e3 : i.toNat + 3 < pix.length := by simp only [Int.ofNat_eq_coe] at h1; omega
  unfold slice4
  rw [if_neg (by omega)]
  simp [List.getElem?_eq_getElem, e0, e1, e2, e3]

theorem At_eq_colorAt (p : RGBA) (hp : p.InBounds) (x y : Int) :
    p.At x y = some (p.colorAt x y) := by
  unfold RGBA.colorAt
  by_cases hin : Point.In ⟨x, y⟩ p.Rect = true
  · obtain ⟨h0, h1⟩ := hp x y hin
    obtain ⟨c, hc⟩ := slice4_isSome p.Pix _ h0 h1
    have : p.At x y = some c := by
      unfold RGBA.At; simp [hin, hc]
    rw [this]; rfl
  · have : p.At x y = some ⟨0, 0, 0, 0⟩ := by
      unfold RGBA.At; simp [hin]
    rw [this]; rfl

theorem compareStep_eq (a b : RGBA) (ha : a.InBounds) (hb : b.InBounds) (x y acc : Int) :
    compareStep a b y acc x
      = some (wrapInt64 (acc + Int.ofNat (pixelTerm (a.colorAt x y) (b.colorAt x y)))) := by
  unfold compareStep
  rw [At_eq_colorAt a ha, At_eq_colorAt b hb]
  simp [pixelSum_eq]

theorem CompareAccum_eq (a b : RGBA) (ha : a.InBounds) (hb : b.InBounds) :
    CompareAccum a b = some (wrapInt64 (Int.ofNat (sumSq a b))) := by
  unfold CompareAccum
  have h := foldlM_wrap_sum (intRange a.Rect.Min.Y a.Rect.Max.Y)
    (fun y => ((intRange a.Rect.Min.X a.Rect.Max.X).map (fun x =>
      pixelTerm (a.colorAt x y) (b.colorAt x y))).sum)
    (fun accumError y =>
      (intRange a.Rect.Min.X a.Rect.Max.X).foldlM (compareStep a b y) accumError)
    (fun acc y _ hacc => foldlM_wrap_sum _ _ _
      (fun acc' x _ _ => compareStep_eq a b ha hb x y acc') acc hacc)
    0 (by decide)
  simp only [RGBA.Bounds]
  rw [h]
  simp [sumSq]

theorem Compare_eq (a b : RGBA) (hr : a.Rect = b.Rect) (ha : a.InBounds) (hb : b.InBounds)
    (hT : sumSq a b < 2 ^ 63) :
    Compare a b = some (sqrtScore (Int.ofNat (sumSq a b)), none) := by
  unfold Compare
  rw [if_neg (by simp [RGBA.Bounds, hr]), CompareAccum_eq a b ha hb,
    wrapInt64_of_range _ (by simp only [Int.ofNat_eq_coe]; omega)
      (by simp only [Int.ofNat_eq_coe]; omega)]
  rfl

theorem sum_map_le_length_mul {α : Type} (l : List α) (g : α → Nat) (c : Nat)
    (h : ∀ x ∈ l, g x ≤ c) : (l.map g).sum ≤ l.length * c := by
  induction l with
  | nil => simp
  | cons x xs ih =>
    have h1 := h x (List.mem_cons_self _ _)
    have h2 := ih (fun y hy => h y (List.mem_cons_of_mem _ hy))
    simp only [List.map_cons, List.sum_cons, List.length_cons, Nat.succ_mul]
    omega

theorem sumSq_le (a b : RGBA) : sumSq a b ≤ a.Rect.pixelCount * 4294836224 := by
  unfold sumSq Rectangle.pixelCount
  have hrow : ∀ y ∈ intRange a.Rect.Min.Y a.Rect.Max.Y,
      ((intRange a.Rect.Min.X a.Rect.Max.X).map (fun x =>
        pixelTerm (a.colorAt x y) (b.colorAt x y))).sum
        ≤ (a.Rect.Max.X - a.Rect.Min.X).toNat * 4294836224 := by
    intro y _
    have := sum_map_le_length_mul (intRange a.Rect.Min.X a.Rect.Max.X)
      (fun x => pixelTerm (a.colorAt x y) (b.colorAt x y)) 4294836224
      (fun x _ => pixelTerm_le _ _)
    rwa [length_intRange] at this
  have := sum_map_le_length_mul (intRange a.Rect.Min.Y a.Rect.Max.Y) _ _ hrow
  rw [length_intRange] at this
  calc _ ≤ _ := this
    _ = _ := by ring

theorem sumSq_lt_of_pixelCount (a b : RGBA) (h : a.Rect.pixelCount ≤ 2 ^ 31) :
    sumSq a b < 2 ^ 63 := by
  have h1 := sumSq_le a b
  have h2 : a.Rect.pixelCount * 4294836224 ≤ 2 ^ 31 * 4294836224 := Nat.mul_le_mul_right _ h
  omega

/-! ### `FastCompare` -/

theorem fastStep_eq (a b : RGBA) (hlen : a.Pix.length ≤ b.Pix.length) (acc : Int) (i : Nat)
    (hi : i ∈ List.range a.Pix.length) :
    fastStep a b acc i = some (wrapInt64 (acc + Int.ofNat
      (sqDiffUInt8 (a.Pix.getD i 0) (b.Pix.getD i 0)))) := by
  have h1 : i < a.Pix.length := List.mem_range.1 hi
  have h2 : i < b.Pix.length := by omega
  unfold fastStep
  simp [List.getElem?_eq_getElem, h1, h2, List.getD_eq_getElem, int64OfUint64_sqDiffUInt8]

theorem range_map_eq_zipWith {α β : Type} (f : α → α → β) (d : α) (xs ys : List α)
    (h : xs.length = ys.length) :
    (List.range xs.length).map (fun i => f (xs.getD i d) (ys.getD i d)) = List.zipWith f xs ys := by
  apply List.ext_getElem
  · simp [h]
  · intro i h1 h2
    simp only [List.length_map, List.length_range] at h1
    simp [List.getD_eq_getElem, h1, show i < ys.length by omega]

theorem FastCompareAccum_eq (a b : RGBA) (hlen : a.Pix.length = b.Pix.length) :
    FastCompareAccum a b = some (wrapInt64 (Int.ofNat (sumSqBytes a b))) := by
  unfold FastCompareAccum
  rw [foldlM_wrap_sum (List.range a.Pix.length)
    (fun i => sqDiffUInt8 (a.Pix.getD i 0) (b.Pix.getD i 0)) (fastStep a b)
    (fun acc i hi _ => fastStep_eq a b (le_of_eq hlen) acc i hi) 0 (by decide)]
  rw [range_map_eq_zipWith (fun x y => sqDiffUInt8 x y) 0 a.Pix b.Pix hlen]
  simp only [sumSqBytes, sqDiffUInt8_eq, pow_two, Int.zero_add]

theorem sum_zipWith_le {α : Type} (f : α → α → Nat) (c : Nat) (hf : ∀ x y, f x y ≤ c)
    (xs ys : List α) : (List.zipWith f xs ys).sum ≤ xs.length * c := by
  induction xs generalizing ys with
  | nil => simp
  | cons x xs ih =>
    cases ys with
    | nil => simp
    | cons y ys =>
      have h1 := hf x y
      have h2 := ih ys
      simp only [List.zipWith_cons_cons, List.sum_cons, List.length_cons, Nat.succ_mul]
      omega

theorem sumSqBytes_le (a b : RGBA) : sumSqBytes a b ≤ a.Pix.length * 65025 := by
  unfold sumSqBytes
  apply sum_zipWith_le
  intro x y
  have hd : Nat.dist x.val y.val ≤ 255 := by unfold Nat.dist; omega
  calc Nat.dist x.val y.val ^ 2 = Nat.dist x.val y.val * Nat.dist x.val y.val := pow_two _
    _ ≤ 255 * 255 := Nat.mul_le_mul hd hd

theorem FastCompare_eq (a b : RGBA) (hr : a.Rect = b.Rect) (hlen : a.Pix.length = b.Pix.length)
    (hT : sumSqBytes a b < 2 ^ 63) :
    FastCompare a b = some (sqrtScore (Int.ofNat (sumSqBytes a b)), none) := by
  unfold FastCompare
  rw [if_neg (by simp [RGBA.Bounds, hr]), FastCompareAccum_eq a b hlen,
    wrapInt64_of_range _ (by simp only [Int.ofNat_eq_coe]; omega)
      (by simp only [Int.ofNat_eq_coe]; omega)]
  rfl

/-! ## `ConvertToRGBA` -/

theorem wrapInt64_range (v : Int) : -(2 ^ 63) ≤ wrapInt64 v ∧ wrapInt64 v < 2 ^ 63 := by
  unfold wrapInt64; omega

theorem Rect_of_nonneg (w h : Int) (hw : 0 ≤ w) (hh : 0 ≤ h) :
    Rect 0 0 w h = ⟨⟨0, 0⟩, ⟨w, h⟩⟩ := by
  unfold Rect
  rw [if_neg (by omega), if_neg (by omega)]

theorem mul3NonNeg_eq (w h : Int) (hw : 0 ≤ w) (hh : 0 ≤ h) (h1 : 4 * w < 2 ^ 63)
    (h2 : 4 * w * h < 2 ^ 63) : mul3NonNeg 4 w h = 4 * w * h := by
  obtain ⟨W, rfl⟩ := Int.eq_ofNat_of_zero_le hw
  obtain ⟨H, rfl⟩ := Int.eq_ofNat_of_zero_le hh
  have h1' : 4 * W < 2 ^ 63 := by exact_mod_cast h1
  have h2' : 4 * W * H < 2 ^ 63 := by exact_mod_cast h2
  unfold mul3NonNeg
  rw [if_neg (by omega)]
  simp only [Int.toNat_ofNat, Int.toNat_natCast, show (4 : Int).toNat = 4 from rfl]
  rw [if_neg (by simp; omega)]
  rw [Nat.mod_eq_of_lt (show 4 * W < 2 ^ 64 by omega)]
  rw [if_neg (by simp; omega)]
  rw [Nat.mod_eq_of_lt (show 4 * W * H < 2 ^ 64 by omega)]
  have e : wrapInt64 (Int.ofNat (4 * W * H)) = Int.ofNat (4 * W * H) :=
    wrapInt64_of_range _ (by simp only [Int.ofNat_eq_coe]; omega)
      (by simp only [Int.ofNat_eq_coe]; omega)
  rw [e]
  rw [if_neg]
  · simp
  · simp only [Int.ofNat_eq_coe]; omega

/-- A row-major buffer without padding backs every pixel of its bounds. -/
theorem canonical_inBounds (p : RGBA) (w h : Int) (hw : 0 ≤ w) (hh : 0 ≤ h)
    (hX : p.Rect.Max.X - p.Rect.Min.X = w) (hY : p.Rect.Max.Y - p.Rect.Min.Y = h)
    (hs : p.Stride = 4 * w) (hlen : Int.ofNat p.Pix.length = 4 * w * h)
    (hfit : 4 * w * h < 2 ^ 63) : p.InBounds := by
  intro x y hin
  simp only [Point.In, Bool.and_eq_true, decide_eq_true_eq] at hin
  obtain ⟨⟨⟨hx0, hx1⟩, hy0⟩, hy1⟩ := hin
  unfold RGBA.PixOffset
  rw [hs, hlen]
  generalize hu : x - p.Rect.Min.X = u
  generalize hv : y - p.Rect.Min.Y = v
  have hu0 : 0 ≤ u := by omega
  have hu1 : u + 1 ≤ w := by omega
  have hv0 : 0 ≤ v := by omega
  have hv1 : v + 1 ≤ h := by omega
  have e1 : v * (4 * w) + 4 * w ≤ 4 * w * h := by nlinarith
  have e2 : 0 ≤ v * (4 * w) := by nlinarith
  have e3 : v ≤ v * (4 * w) := by nlinarith
  have w1 : wrapInt64 v = v := wrapInt64_of_range _ (by omega) (by omega)
  have w2 : wrapInt64 u = u := wrapInt64_of_range _ (by omega) (by omega)
  rw [w1, w2]
  have w3 : wrapInt64 (v * (4 * w)) = v * (4 * w) := wrapInt64_of_range _ (by omega) (by omega)
  have w4 : wrapInt64 (u * 4) = u * 4 := wrapInt64_of_range _ (by omega) (by omega)
  rw [w3, w4]
  have w5 : wrapInt64 (v * (4 * w) + u * 4) = v * (4 * w) + u * 4 :=
    wrapInt64_of_range _ (by omega) (by omega)
  rw [w5]
  omega

theorem NewRGBA_origin (memLimit : Nat) (w h : Int) (hw : 0 ≤ w) (hh : 0 ≤ h)
    (hh' : h < 2 ^ 63) (h1 : 4 * w < 2 ^ 63) (h2 : 4 * w * h < 2 ^ 63)
    (h3 : 4 * w * h ≤ Int.ofNat maxAlloc) (h4 : 4 * w * h ≤ Int.ofNat memLimit) :
    NewRGBA memLimit ⟨⟨0, 0⟩, ⟨w, h⟩⟩
      = some ⟨List.replicate (4 * w * h).toNat 0, 4 * w, ⟨⟨0, 0⟩, ⟨w, h⟩⟩⟩ := by
  have ew : wrapInt64 w = w := wrapInt64_of_range _ (by omega) (by omega)
  have eh : wrapInt64 h = h := wrapInt64_of_range _ (by omega) (by omega)
  have es : wrapInt64 (4 * w) = 4 * w := wrapInt64_of_range _ (by omega) (by omega)
  unfold NewRGBA Rectangle.Dx Rectangle.Dy
  simp only [Int.sub_zero, ew, eh, es]
  rw [mul3NonNeg_eq w h hw hh h1 h2]
  rw [if_neg (by nlinarith), if_neg (not_lt.mpr h3), if_neg (not_lt.mpr h4)]

/-- A store inside the buffer succeeds and keeps the length. -/
theorem store4_length (pix : List Byte) (i : Int) (c : Nat × Nat × Nat × Nat)
    (h0 : 0 ≤ i) (h1 : i + 4 ≤ Int.ofNat pix.length) :
    ∃ pix', store4 pix i c = some pix' ∧ pix'.length = pix.length := by
  unfold store4
  rw [if_neg (by omega)]
  exact ⟨_, rfl, by simp⟩

/-- A loop of length-preserving steps that cannot fail on buffers of length
`n` returns a buffer of length `n`. -/
theorem foldlM_length {α : Type} (l : List α) (n : Nat)
    (step : List Byte → α → Option (List Byte))
    (hstep : ∀ pix x, x ∈ l → pix.length = n →
      ∃ pix', step pix x = some pix' ∧ pix'.length = n)
    (pix : List Byte) (hpix : pix.length = n) :
    ∃ pix', l.foldlM step pix = some pix' ∧ pix'.length = n := by
  induction l generalizing pix with
  | nil => exact ⟨pix, rfl, hpix⟩
  | cons x xs ih =>
    obtain ⟨pix1, e1, l1⟩ := hstep pix x (List.mem_cons_self _ _) hpix
    obtain ⟨pix2, e2, l2⟩ := ih (fun q y hy => hstep q y (List.mem_cons_of_mem _ hy)) pix1 l1
    exact ⟨pix2, by rw [List.foldlM_cons, e1]; exact e2, l2⟩

/-- A non-empty intersection lies inside its receiver. -/
theorem Intersect_subset (r s : Rectangle) (h : (r.Intersect s).Empty = false) :
    r.Min.X ≤ (r.Intersect s).Min.X ∧ r.Min.Y ≤ (r.Intersect s).Min.Y ∧
      (r.Intersect s).Max.X ≤ r.Max.X ∧ (r.Intersect s).Max.Y ≤ r.Max.Y := by
  generalize ht : (⟨⟨if r.Min.X < s.Min.X then s.Min.X else r.Min.X,
      if r.Min.Y < s.Min.Y then s.Min.Y else r.Min.Y⟩,
     ⟨if r.Max.X > s.Max.X then s.Max.X else r.Max.X,
      if r.Max.Y > s.Max.Y then s.Max.Y else r.Max.Y⟩⟩ : Rectangle) = t
  have key : r.Intersect s = if t.Empty then ⟨⟨0, 0⟩, ⟨0, 0⟩⟩ else t := by
    rw [← ht]; rfl
  by_cases hE : t.Empty = true
  · rw [key, if_pos hE] at h
    simp [Rectangle.Empty] at h
  · rw [key, if_neg hE, ← ht]
    simp only []
    refine ⟨?_, ?_, ?_, ?_⟩ <;> split <;> omega

/-- A non-empty intersection lies inside its argument. -/
theorem Intersect_subset_right (r s : Rectangle) (h : (r.Intersect s).Empty = false) :
    s.Min.X ≤ (r.Intersect s).Min.X ∧ s.Min.Y ≤ (r.Intersect s).Min.Y ∧
      (r.Intersect s).Max.X ≤ s.Max.X ∧ (r.Intersect s).Max.Y ≤ s.Max.Y := by
  generalize ht : (⟨⟨if r.Min.X < s.Min.X then s.Min.X else r.Min.X,
      if r.Min.Y < s.Min.Y then s.Min.Y else r.Min.Y⟩,
     ⟨if r.Max.X > s.Max.X then s.Max.X else r.Max.X,
      if r.Max.Y > s.Max.Y then s.Max.Y else r.Max.Y⟩⟩ : Rectangle) = t
  have key : r.Intersect s = if t.Empty then ⟨⟨0, 0⟩, ⟨0, 0⟩⟩ else t := by
    rw [← ht]; rfl
  by_cases hE : t.Empty = true
  · rw [key, if_pos hE] at h
    simp [Rectangle.Empty] at h
  · rw [key, if_neg hE, ← ht]
    simp only []
    refine ⟨?_, ?_, ?_, ?_⟩ <;> split <;> omega

theorem Empty_eq_false (r : Rectangle) :
    r.Empty = false ↔ r.Min.X < r.Max.X ∧ r.Min.Y < r.Max.Y := by
  simp [Rectangle.Empty]

/-- The clipped rectangle, when it is not empty, lies inside the destination. -/
theorem clip_subset (dst : RGBA) (r : Rectangle) (src : Image) (sp : Point)
    (h : (clip dst r src sp).1.Empty = false) (x y : Int)
    (hx : (clip dst r src sp).1.Min.X ≤ x ∧ x < (clip dst r src sp).1.Max.X)
    (hy : (clip dst r src sp).1.Min.Y ≤ y ∧ y < (clip dst r src sp).1.Max.Y) :
    Point.In ⟨x, y⟩ dst.Rect = true := by
  have e : (clip dst r src sp).1
      = (r.Intersect dst.Bounds).Intersect (src.Bounds.Add (r.Min.Sub sp)) := rfl
  rw [e] at h hx hy
  have h2 := Intersect_subset _ _ h
  have hne := (Empty_eq_false _).1 h
  have h1e : (r.Intersect dst.Bounds).Empty = false := by
    rw [Empty_eq_false]; omega
  have h1 := Intersect_subset_right _ _ h1e
  simp only [RGBA.Bounds] at h1 h2 hx hy
  simp only [Point.In, Bool.and_eq_true, decide_eq_true_eq]
  omega

theorem drawStep_length (dst : RGBA) (hd : dst.InBounds) (r : Rectangle) (bounds : Rectangle)
    (colorAt : Int → Int → Nat × Nat × Nat × Nat) (sp : Point) (x y : Int)
    (hin : Point.In ⟨x, y⟩ dst.Rect = true) (pix : List Byte)
    (hpix : pix.length = dst.Pix.length) :
    ∃ pix', drawStep dst r (Image.other bounds colorAt) sp y pix x = some pix'
      ∧ pix'.length = dst.Pix.length := by
  obtain ⟨h0, h1⟩ := hd x y hin
  obtain ⟨pix', e, l⟩ := store4_length pix (dst.PixOffset x y)
    (colorAt (wrapInt64 (sp.X + wrapInt64 (x - r.Min.X)))
      (wrapInt64 (sp.Y + wrapInt64 (y - r.Min.Y)))) h0 (by rw [hpix]; exact h1)
  exact ⟨pix', by simpa [drawStep, Image.channelsAt] using e, by rw [l, hpix]⟩

/-- Drawing a source that is not an RGBA image onto a well-formed destination
returns, and changes neither the bounds, nor the stride, nor the length. -/
theorem Draw_other (dst : RGBA) (hd : dst.InBounds) (r : Rectangle) (bounds : Rectangle)
    (colorAt : Int → Int → Nat × Nat × Nat × Nat) (sp : Point) :
    ∃ p, Draw dst r (Image.other bounds colorAt) sp = some p ∧ p.Rect = dst.Rect
      ∧ p.Stride = dst.Stride ∧ p.Pix.length = dst.Pix.length := by
  unfold Draw
  simp only []
  by_cases hE : (clip dst r (Image.other bounds colorAt) sp).1.Empty = true
  · rw [if_pos hE]; exact ⟨dst, rfl, rfl, rfl, rfl⟩
  · rw [if_neg hE]
    have hE' : (clip dst r (Image.other bounds colorAt) sp).1.Empty = false := by
      simpa using hE
    generalize hc : clip dst r (Image.other bounds colorAt) sp = c at hE'
    have hsub : ∀ x y, (c.1.Min.X ≤ x ∧ x < c.1.Max.X) → (c.1.Min.Y ≤ y ∧ y < c.1.Max.Y) →
        Point.In ⟨x, y⟩ dst.Rect = true := by
      intro x y hx hy
      rw [← hc] at hx hy hE'
      exact clip_subset dst r _ sp hE' x y hx hy
    obtain ⟨pix, e, l⟩ := foldlM_length (intRange c.1.Min.Y c.1.Max.Y) dst.Pix.length
      (fun pix y => (intRange c.1.Min.X c.1.Max.X).foldlM
        (drawStep dst c.1 (Image.other bounds colorAt) c.2 y) pix)
      (fun pix y hy hpix => foldlM_length _ _ _
        (fun q x hx hq => drawStep_length dst hd c.1 bounds colorAt c.2 x y
          (hsub x y ((mem_intRange _ _ _).1 hx) ((mem_intRange _ _ _).1 hy)) q hq) pix hpix)
      dst.Pix rfl
    refine ⟨{ dst with Pix := pix }, ?_, rfl, rfl, l⟩
    unfold drawRGBA
    rw [e]; rfl

/-! ## Identity and symmetry -/

theorem compareStep_comm (a b : RGBA) (y acc x : Int) :
    compareStep a b y acc x = compareStep b a y acc x := by
  unfold compareStep
  cases ha : a.At x y <;> cases hb : b.At x y <;>
    simp [pixelSum_eq, pixelTerm_comm]

theorem CompareAccum_comm (a b : RGBA) (hr : a.Rect = b.Rect) :
    CompareAccum a b = CompareAccum b a := by
  unfold CompareAccum
  simp only [RGBA.Bounds, hr]
  have : ∀ y, compareStep a b y = compareStep b a y := by
    intro y; funext acc x; exact compareStep_comm a b y acc x
  simp only [this]

theorem Compare_comm (a b : RGBA) (hr : a.Rect = b.Rect) : Compare a b = Compare b a := by
  unfold Compare
  rw [if_neg (by simp [RGBA.Bounds, hr]), if_neg (by simp [RGBA.Bounds, hr]),
    CompareAccum_comm a b hr]

theorem sumSq_self (a : RGBA) : sumSq a a = 0 := by
  simp [sumSq, pixelTerm_self]

theorem sumSqBytes_self (a : RGBA) : sumSqBytes a a = 0 := by
  unfold sumSqBytes
  induction a.Pix with
  | nil => rfl
  | cons x xs ih => simp [ih, Nat.dist]

theorem Compare_self (a : RGBA) (ha : a.InBounds) : Compare a a = some (0, none) := by
  rw [Compare_eq a a rfl ha ha (by rw [sumSq_self]; norm_num), sumSq_self]
  exact congrArg (fun s => some (s, none)) sqrtScore_zero

theorem FastCompare_self (a : RGBA) : FastCompare a a = some (0, none) := by
  rw [FastCompare_eq a a rfl rfl (by rw [sumSqBytes_self]; norm_num), sumSqBytes_self]
  exact congrArg (fun s => some (s, none)) sqrtScore_zero

/-! ## Conversion -/

theorem ConvertToRGBA_other (memLimit : Nat) (bounds : Rectangle)
    (colorAt : Int → Int → Nat × Nat × Nat × Nat) (hf : bounds.Fits memLimit) :
    ∃ p, ConvertToRGBA memLimit (Image.other bounds colorAt) = some p
      ∧ p.Rect = ⟨⟨0, 0⟩, ⟨bounds.Dx, bounds.Dy⟩⟩ ∧ p.Stride = 4 * bounds.Dx
      ∧ Int.ofNat p.Pix.length = 4 * bounds.Dx * bounds.Dy := by
  obtain ⟨hw, hh, h1, h2, h3, h4⟩ := hf
  have hh' : bounds.Dy < 2 ^ 63 := (wrapInt64_range _).2
  have hnew := NewRGBA_origin memLimit bounds.Dx bounds.Dy hw hh hh' h1 h2 h3 h4
  generalize hq : (⟨List.replicate (4 * bounds.Dx * bounds.Dy).toNat 0, 4 * bounds.Dx,
    ⟨⟨0, 0⟩, ⟨bounds.Dx, bounds.Dy⟩⟩⟩ : RGBA) = q at hnew
  have hlen : Int.ofNat q.Pix.length = 4 * bounds.Dx * bounds.Dy := by
    rw [← hq]
    simp only [List.length_replicate, Int.ofNat_eq_coe]
    have : 0 ≤ 4 * bounds.Dx * bounds.Dy := by nlinarith
    omega
  have hqr : q.Rect = ⟨⟨0, 0⟩, ⟨bounds.Dx, bounds.Dy⟩⟩ := by rw [← hq]
  have hqs : q.Stride = 4 * bounds.Dx := by rw [← hq]
  have hin : q.InBounds := canonical_inBounds q bounds.Dx bounds.Dy hw hh
    (by rw [hqr]; simp) (by rw [hqr]; simp) hqs hlen h2
  obtain ⟨p, e, er, es, el⟩ := Draw_other q hin q.Bounds bounds colorAt bounds.Min
  refine ⟨p, ?_, by rw [er, hqr], by rw [es, hqs], by rw [el]; exact hlen⟩
  unfold ConvertToRGBA
  simp only [Image.Bounds]
  rw [Rect_of_nonneg _ _ hw hh, hnew]
  exact e

theorem black2x2_inBounds : black2x2.InBounds :=
  canonical_inBounds black2x2 2 2 (by decide) (by decide) (by decide) (by decide) (by decide)
    (by decide) (by decide)

theorem white2x2_inBounds : white2x2.InBounds :=
  canonical_inBounds white2x2 2 2 (by decide) (by decide) (by decide) (by decide) (by decide)
    (by decide) (by decide)

theorem ramp_fits : ramp.Fits (2 ^ 30) := by
  show Rectangle.Fits ⟨⟨3, 5⟩, ⟨5, 8⟩⟩ (2 ^ 30)
  unfold Rectangle.Fits Rectangle.Dx Rectangle.Dy maxAlloc
  decide

set_option maxRecDepth 20000 in
theorem Compare_truncated2x2 : Compare truncated2x2 truncated2x2 = none := by
  decide

theorem mul3NonNeg_uniformWhite :
    mul3NonNeg 4 (Rect 0 0 uniformWhite.Bounds.Dx uniformWhite.Bounds.Dy).Dx
      (Rect 0 0 uniformWhite.Bounds.Dx uniformWhite.Bounds.Dy).Dy = -1 := by
  decide

theorem ConvertToRGBA_uniformWhite (memLimit : Nat) :
    ConvertToRGBA memLimit uniformWhite = none := by
  have h := mul3NonNeg_uniformWhite
  unfold ConvertToRGBA uniformWhite NewRGBA at *
  simp only [h]
  rfl

theorem mul3NonNeg_wideBlack :
    mul3NonNeg 4 (Rect 0 0 wideBlack.Bounds.Dx wideBlack.Bounds.Dy).Dx
      (Rect 0 0 wideBlack.Bounds.Dx wideBlack.Bounds.Dy).Dy = 2 ^ 52 := by
  decide

theorem ConvertToRGBA_wideBlack (memLimit : Nat) :
    ConvertToRGBA memLimit wideBlack = none := by
  have h := mul3NonNeg_wideBlack
  unfold ConvertToRGBA wideBlack NewRGBA at *
  simp only [h]
  rfl

theorem sqrt_12884508672 : Nat.sqrt 12884508672 = 113509 := by
  symm; rw [Nat.eq_sqrt]; constructor <;> norm_num

set_option maxRecDepth 20000 in
theorem black_white_accum : CompareAccum black2x2 white2x2 = some 12884508672 := by
  decide

/-! ## Uniform images -/

theorem uniform_inBounds (w h : Nat) (v : Byte) (hfit : 4 * w * h < 2 ^ 63) :
    (uniform w h v).InBounds :=
  canonical_inBounds (uniform w h v) (Int.ofNat w) (Int.ofNat h) (Int.ofNat_nonneg _)
    (Int.ofNat_nonneg _) (by simp [uniform]) (by simp [uniform]) rfl
    (by simp [uniform]) (by simp only [Int.ofNat_eq_coe]; exact_mod_cast hfit)

theorem uniform_colorAt (w h : Nat) (v : Byte) (hfit : 4 * w * h < 2 ^ 63) (x y : Int)
    (hin : Point.In ⟨x, y⟩ (uniform w h v).Rect = true) :
    (uniform w h v).colorAt x y = ⟨v, v, v, v⟩ := by
  obtain ⟨h0, h1⟩ := uniform_inBounds w h v hfit x y hin
  have hlen : (uniform w h v).Pix.length = 4 * w * h := by simp [uniform]
  have hat : (uniform w h v).At x y = some ⟨v, v, v, v⟩ := by
    unfold RGBA.At
    rw [hin]
    simp only [Bool.not_true, Bool.false_eq_true, if_false]
    generalize (uniform w h v).PixOffset x y = i at h0 h1
    rw [hlen] at h1
    simp only [Int.ofNat_eq_coe] at h1
    unfold slice4
    rw [if_neg (by omega)]
    have e0 : i.toNat < 4 * w * h := by omega
    have e1 : i.toNat + 1 < 4 * w * h := by omega
    have e2 : i.toNat + 2 < 4 * w * h := by omega
    have e3 : i.toNat + 3 < 4 * w * h := by omega
    simp [uniform, List.getElem?_replicate, e0, e1, e2, e3]
  unfold RGBA.colorAt
  rw [hat]; rfl

theorem sum_map_const_on {α : Type} (l : List α) (g : α → Nat) (c : Nat)
    (h : ∀ x ∈ l, g x = c) : (l.map g).sum = l.length * c := by
  induction l with
  | nil => simp
  | cons x xs ih =>
    simp only [List.map_cons, List.sum_cons, List.length_cons, Nat.succ_mul,
      h x (List.mem_cons_self _ _), ih (fun y hy => h y (List.mem_cons_of_mem _ hy))]
    omega

theorem sumSq_uniform (w h : Nat) (u v : Byte) (hfit : 4 * w * h < 2 ^ 63) :
    sumSq (uniform w h u) (uniform w h v) = h * (w * (4 * sqDiff (widen u) (widen v))) := by
  unfold sumSq
  have hrow : ∀ y ∈ intRange (uniform w h u).Rect.Min.Y (uniform w h u).Rect.Max.Y,
      ((intRange (uniform w h u).Rect.Min.X (uniform w h u).Rect.Max.X).map (fun x =>
        pixelTerm ((uniform w h u).colorAt x y) ((uniform w h v).colorAt x y))).sum
        = w * (4 * sqDiff (widen u) (widen v)) := by
    intro y hy
    rw [sum_map_const_on _ _ (4 * sqDiff (widen u) (widen v))]
    · simp [length_intRange, uniform]
    · intro x hx
      have hin : Point.In ⟨x, y⟩ (uniform w h u).Rect = true := by
        have hx' := (mem_intRange _ _ _).1 hx
        have hy' := (mem_intRange _ _ _).1 hy
        simp only [Point.In, Bool.and_eq_true, decide_eq_true_eq]
        omega
      rw [uniform_colorAt w h u hfit x y hin, uniform_colorAt w h v hfit x y hin]
      unfold pixelTerm; simp only []; omega
  rw [sum_map_const_on _ _ _ hrow]
  simp [length_intRange, uniform]

theorem sumSqBytes_uniform (w h : Nat) (u v : Byte) :
    sumSqBytes (uniform w h u) (uniform w h v) = 4 * w * h * Nat.dist u.val v.val ^ 2 := by
  simp [sumSqBytes, uniform, List.zipWith_replicate]

/-- Evaluation of `truncSqrt` from the three integer roots and logarithms. -/
theorem truncSqrt_eval (v k p r : Nat) (hk : Nat.sqrt v = k) (hp : Nat.log2 k = p)
    (hr : Nat.sqrt (v * 4 ^ (52 - p)) = r) :
    truncSqrt v = (if r * r + r < v * 4 ^ (52 - p) then r + 1 else r) / 2 ^ (52 - p) := by
  unfold truncSqrt
  simp only [hk, hp, hr]

theorem sqrt_eq_of (n k : Nat) (h1 : k * k ≤ n) (h2 : n < (k + 1) * (k + 1)) :
    Nat.sqrt n = k := (Nat.eq_sqrt.2 ⟨h1, h2⟩).symm

theorem sqrtScore_4556530669322240 : sqrtScore (Int.ofNat 4556530669322240) = 67502079 := by
  rw [sqrtScore_ofNat _ (by norm_num), roundTo53_of_lt _ (by norm_num),
    truncSqrt_eval 4556530669322240 67502078 26 4529987839328255
      (sqrt_eq_of _ _ (by norm_num) (by norm_num))
      (log2_eq_of _ _ (by norm_num) (by norm_num))
      (sqrt_eq_of _ _ (by norm_num) (by norm_num))]
  norm_num

theorem uniform_length (w h : Nat) (v : Byte) : (uniform w h v).Pix.length = 4 * w * h := by
  simp [uniform]

theorem sqrtScore_4503886455222000 : sqrtScore (Int.ofNat 4503886455222000) = 67111001 := by
  rw [sqrtScore_ofNat _ (by norm_num), roundTo53_of_lt _ (by norm_num),
    truncSqrt_eval 4503886455222000 67111000 26 4503743039012863
      (sqrt_eq_of _ _ (by norm_num) (by norm_num))
      (log2_eq_of _ _ (by norm_num) (by norm_num))
      (sqrt_eq_of _ _ (by norm_num) (by norm_num))]
  norm_num

theorem sumSq_grey_black :
    sumSq (uniform 2060 2044 128) (uniform 2060 2044 0) = 4556530669322240 := by
  rw [sumSq_uniform 2060 2044 128 0 (by norm_num),
    show sqDiff (widen 128) (widen 0) = 270536704 by decide]

theorem sumSqBytes_white_black :
    sumSqBytes (uniform 129010 134222 255) (uniform 129010 134222 0) = 4503886455222000 := by
  rw [sumSqBytes_uniform, show Nat.dist (255 : Byte).val (0 : Byte).val = 255 by decide]
  norm_num

/-! ## Monotonicity -/

theorem dist_widen (u v : Byte) : Nat.dist (widen u) (widen v) = 257 * Nat.dist u.val v.val := by
  rw [widen_eq, widen_eq]; unfold Nat.dist; omega

/-- The 16-bit kernel on widened bytes grows with the distance of the bytes. -/
theorem sqDiff_widen_mono (u v v' : Byte) (h : Nat.dist u.val v.val ≤ Nat.dist u.val v'.val) :
    sqDiff (widen u) (widen v) ≤ sqDiff (widen u) (widen v') := by
  rw [sqDiff_eq _ _ (widen_le u) (widen_le v), sqDiff_eq _ _ (widen_le u) (widen_le v'),
    dist_widen, dist_widen]
  have h1 : 257 * Nat.dist u.val v.val ≤ 257 * Nat.dist u.val v'.val := Nat.mul_le_mul_left _ h
  exact Nat.div_le_div_right (Nat.mul_le_mul h1 h1)

theorem slice4_eq (pix : List Byte) (i : Int) (h0 : 0 ≤ i) (h1 : i + 4 ≤ Int.ofNat pix.length) :
    slice4 pix i = some ⟨pix.getD i.toNat 0, pix.getD (i.toNat + 1) 0,
      pix.getD (i.toNat + 2) 0, pix.getD (i.toNat + 3) 0⟩ := by
  have e0 : i.toNat < pix.length := by simp only [Int.ofNat_eq_coe] at h1; omega
  have e1 : i.toNat + 1 < pix.length := by simp only [Int.ofNat_eq_coe] at h1; omega
  have e2 : i.toNat + 2 < pix.length := by simp only [Int.ofNat_eq_coe] at h1; omega
  have e3 : i.toNat + 3 < pix.length := by simp only [Int.ofNat_eq_coe] at h1; omega
  unfold slice4
  rw [if_neg (by omega)]
  simp [List.getElem?_eq_getElem, List.getD_eq_getElem, e0, e1, e2, e3]

/-- Inside the bounds of a well-formed image the colour is made of the four
bytes at `PixOffset`. -/
theorem colorAt_bytes (p : RGBA) (hp : p.InBounds) (x y : Int)
    (hin : Point.In ⟨x, y⟩ p.Rect = true) :
    p.colorAt x y = ⟨p.Pix.getD (p.PixOffset x y).toNat 0,
      p.Pix.getD ((p.PixOffset x y).toNat + 1) 0, p.Pix.getD ((p.PixOffset x y).toNat + 2) 0,
      p.Pix.getD ((p.PixOffset x y).toNat + 3) 0⟩ := by
  obtain ⟨h0, h1⟩ := hp x y hin
  unfold RGBA.colorAt RGBA.At
  rw [hin]
  simp only [Bool.not_true, Bool.false_eq_true, if_false]
  rw [slice4_eq p.Pix _ h0 h1]; rfl

theorem colorAt_outside (p : RGBA) (x y : Int) (hin : ¬ Point.In ⟨x, y⟩ p.Rect = true) :
    p.colorAt x y = ⟨0, 0, 0, 0⟩ := by
  unfold RGBA.colorAt RGBA.At
  simp [hin]

theorem inBounds_of_same_layout (a b : RGBA) (hr : a.Rect = b.Rect) (hs : a.Stride = b.Stride)
    (hl : a.Pix.length = b.Pix.length) (ha : a.InBounds) : b.InBounds := by
  intro x y hin
  have e : b.PixOffset x y = a.PixOffset x y := by unfold RGBA.PixOffset; rw [hr, hs]
  rw [e, ← hl]
  exact ha x y (by rw [hr]; exact hin)

/-- Byte-wise monotone buffers give pixel-wise monotone terms. -/
theorem pixelTerm_mono (a b1 b2 : RGBA) (hr1 : a.Rect = b1.Rect) (hr2 : a.Rect = b2.Rect)
    (hs1 : a.Stride = b1.Stride) (hs2 : a.Stride = b2.Stride)
    (hl1 : a.Pix.length = b1.Pix.length) (hl2 : a.Pix.length = b2.Pix.length)
    (ha : a.InBounds)
    (hbyte : ∀ j, Nat.dist (a.Pix.getD j 0).val (b1.Pix.getD j 0).val
      ≤ Nat.dist (a.Pix.getD j 0).val (b2.Pix.getD j 0).val)
    (x y : Int) :
    pixelTerm (a.colorAt x y) (b1.colorAt x y) ≤ pixelTerm (a.colorAt x y) (b2.colorAt x y) := by
  by_cases hin : Point.In ⟨x, y⟩ a.Rect = true
  · have hb1 := inBounds_of_same_layout a b1 hr1 hs1 hl1 ha
    have hb2 := inBounds_of_same_layout a b2 hr2 hs2 hl2 ha
    have e1 : b1.PixOffset x y = a.PixOffset x y := by unfold RGBA.PixOffset; rw [hr1, hs1]
    have e2 : b2.PixOffset x y = a.PixOffset x y := by unfold RGBA.PixOffset; rw [hr2, hs2]
    rw [colorAt_bytes a ha x y hin, colorAt_bytes b1 hb1 x y (by rw [← hr1]; exact hin),
      colorAt_bytes b2 hb2 x y (by rw [← hr2]; exact hin), e1, e2]
    unfold pixelTerm
    simp only []
    have c0 := sqDiff_widen_mono _ _ _ (hbyte (a.PixOffset x y).toNat)
    have c1 := sqDiff_widen_mono _ _ _ (hbyte ((a.PixOffset x y).toNat + 1))
    have c2 := sqDiff_widen_mono _ _ _ (hbyte ((a.PixOffset x y).toNat + 2))
    have c3 := sqDiff_widen_mono _ _ _ (hbyte ((a.PixOffset x y).toNat + 3))
    omega
  · rw [colorAt_outside b1 x y (by rw [← hr1]; exact hin),
      colorAt_outside b2 x y (by rw [← hr2]; exact hin)]

theorem sum_map_le_sum_map {α : Type} (l : List α) (f g : α → Nat) (h : ∀ x ∈ l, f x ≤ g x) :
    (l.map f).sum ≤ (l.map g).sum := by
  induction l with
  | nil => simp
  | cons x xs ih =>
    have h1 := h x (List.mem_cons_self _ _)
    have h2 := ih (fun y hy => h y (List.mem_cons_of_mem _ hy))
    simp only [List.map_cons, List.sum_cons]
    omega

theorem sumSq_mono (a b1 b2 : RGBA) (hr1 : a.Rect = b1.Rect) (hr2 : a.Rect = b2.Rect)
    (hs1 : a.Stride = b1.Stride) (hs2 : a.Stride = b2.Stride)
    (hl1 : a.Pix.length = b1.Pix.length) (hl2 : a.Pix.length = b2.Pix.length)
    (ha : a.InBounds)
    (hbyte : ∀ j, Nat.dist (a.Pix.getD j 0).val (b1.Pix.getD j 0).val
      ≤ Nat.dist (a.Pix.getD j 0).val (b2.Pix.getD j 0).val) :
    sumSq a b1 ≤ sumSq a b2 := by
  unfold sumSq
  apply sum_map_le_sum_map
  intro y _
  apply sum_map_le_sum_map
  intro x _
  exact pixelTerm_mono a b1 b2 hr1 hr2 hs1 hs2 hl1 hl2 ha hbyte x y

theorem sumSqBytes_eq_range (a b : RGBA) (hl : a.Pix.length = b.Pix.length) :
    sumSqBytes a b = ((List.range a.Pix.length).map
      (fun j => Nat.dist (a.Pix.getD j 0).val (b.Pix.getD j 0).val ^ 2)).sum := by
  unfold sumSqBytes
  rw [range_map_eq_zipWith (fun x y : Byte => Nat.dist x.val y.val ^ 2) 0 a.Pix b.Pix hl]

theorem sumSqBytes_mono (a b1 b2 : RGBA)
    (hl1 : a.Pix.length = b1.Pix.length) (hl2 : a.Pix.length = b2.Pix.length)
    (hbyte : ∀ j, Nat.dist (a.Pix.getD j 0).val (b1.Pix.getD j 0).val
      ≤ Nat.dist (a.Pix.getD j 0).val (b2.Pix.getD j 0).val) :
    sumSqBytes a b1 ≤ sumSqBytes a b2 := by
  rw [sumSqBytes_eq_range a b1 hl1, sumSqBytes_eq_range a b2 hl2]
  apply sum_map_le_sum_map
  intro j _
  exact Nat.pow_le_pow_left (hbyte j) 2

theorem intRange_cons (lo hi : Int) (h : lo < hi) :
    intRange lo hi = lo :: intRange (lo + 1) hi := by
  unfold intRange
  have e : (hi - lo).toNat = (hi - (lo + 1)).toNat + 1 := by omega
  rw [e, List.range_succ_eq_map]
  simp only [List.map_cons, List.map_map, Int.ofNat_eq_coe, Nat.cast_zero, Int.add_zero]
  congr 1
  apply List.map_congr_left
  intro i _
  simp only [Function.comp, Nat.succ_eq_add_one, Nat.cast_add, Nat.cast_one]
  omega

theorem headImage_length (w h : Nat) (r v : Byte) (hw : 1 ≤ w) (hh : 1 ≤ h) :
    (headImage w h r v).Pix.length = 4 * (w * h) := by
  have : 1 ≤ w * h := Nat.mul_le_mul hw hh
  simp only [headImage, List.length_cons, List.length_replicate]
  omega

theorem headImage_inBounds (w h : Nat) (r v : Byte) (hw : 1 ≤ w) (hh : 1 ≤ h)
    (hfit : 4 * (w * h) < 2 ^ 63) : (headImage w h r v).InBounds :=
  canonical_inBounds (headImage w h r v) (Int.ofNat w) (Int.ofNat h) (Int.ofNat_nonneg _)
    (Int.ofNat_nonneg _) (by simp [headImage]) (by simp [headImage]) rfl
    (by rw [headImage_length w h r v hw hh]; simp only [Int.ofNat_eq_coe]; push_cast; ring)
    (by simp only [Int.ofNat_eq_coe]; rw [mul_assoc]; exact_mod_cast hfit)

theorem headImage_PixOffset (w h : Nat) (r v : Byte) (hfit : 4 * (w * h) < 2 ^ 63) (x y : Int)
    (hin : Point.In ⟨x, y⟩ (headImage w h r v).Rect = true) :
    (headImage w h r v).PixOffset x y = y * (4 * Int.ofNat w) + x * 4 := by
  simp only [Point.In, Bool.and_eq_true, decide_eq_true_eq, headImage, Int.ofNat_eq_coe] at hin
  obtain ⟨⟨⟨hx0, hx1⟩, hy0⟩, hy1⟩ := hin
  unfold RGBA.PixOffset
  simp only [headImage, Int.sub_zero, Int.ofNat_eq_coe]
  have hfit' : 4 * ((w : Int) * (h : Int)) < 2 ^ 63 := by exact_mod_cast hfit
  have e1 : y * (4 * (w : Int)) + 4 * (w : Int) ≤ 4 * ((w : Int) * (h : Int)) := by nlinarith
  have e2 : 0 ≤ y * (4 * (w : Int)) := by nlinarith
  have e3 : y ≤ y * (4 * (w : Int)) := by nlinarith
  have w1 : wrapInt64 y = y := wrapInt64_of_range _ (by omega) (by omega)
  have w2 : wrapInt64 x = x := wrapInt64_of_range _ (by omega) (by omega)
  rw [w1, w2]
  have w3 : wrapInt64 (y * (4 * (w : Int))) = y * (4 * (w : Int)) :=
    wrapInt64_of_range _ (by omega) (by omega)
  have w4 : wrapInt64 (x * 4) = x * 4 := wrapInt64_of_range _ (by omega) (by omega)
  rw [w3, w4]
  exact wrapInt64_of_range _ (by omega) (by omega)

theorem headImage_colorAt_origin (w h : Nat) (r v : Byte) (hw : 1 ≤ w) (hh : 1 ≤ h)
    (hfit : 4 * (w * h) < 2 ^ 63) :
    (headImage w h r v).colorAt 0 0 = ⟨r, 0, 0, 0⟩ := by
  have hin : Point.In ⟨0, 0⟩ (headImage w h r v).Rect = true := by
    simp only [Point.In, Bool.and_eq_true, decide_eq_true_eq, headImage, Int.ofNat_eq_coe]
    omega
  rw [colorAt_bytes _ (headImage_inBounds w h r v hw hh hfit) 0 0 hin,
    headImage_PixOffset w h r v hfit 0 0 hin]
  simp [headImage]

theorem headImage_colorAt_rest (w h : Nat) (r v : Byte) (hw : 1 ≤ w) (hh : 1 ≤ h)
    (hfit : 4 * (w * h) < 2 ^ 63) (x y : Int)
    (hin : Point.In ⟨x, y⟩ (headImage w h r v).Rect = true) (hne : x ≠ 0 ∨ y ≠ 0) :
    (headImage w h r v).colorAt x y = ⟨v, v, v, v⟩ := by
  have hb := headImage_inBounds w h r v hw hh hfit x y hin
  rw [colorAt_bytes _ (headImage_inBounds w h r v hw hh hfit) x y hin]
  rw [headImage_PixOffset w h r v hfit x y hin] at hb ⊢
  rw [headImage_length w h r v hw hh] at hb
  simp only [Point.In, Bool.and_eq_true, decide_eq_true_eq, headImage, Int.ofNat_eq_coe] at hin
  obtain ⟨⟨⟨hx0, hx1⟩, hy0⟩, hy1⟩ := hin
  obtain ⟨hb0, hb1⟩ := hb
  simp only [Int.ofNat_eq_coe] at hb0 hb1 ⊢
  have h4 : 4 ≤ y * (4 * (w : Int)) + x * 4 := by
    rcases hne with hx | hy
    · have : 0 ≤ y * (4 * (w : Int)) := by nlinarith
      omega
    · have : 1 * (4 * (w : Int)) ≤ y * (4 * (w : Int)) :=
        mul_le_mul_of_nonneg_right (by omega) (by omega)
      omega
  generalize y * (4 * (w : Int)) + x * 4 = o at hb0 hb1 h4
  obtain ⟨k, rfl⟩ : ∃ k : Nat, o = Int.ofNat (k + 4) := ⟨(o - 4).toNat, by
    simp only [Int.ofNat_eq_coe]; omega⟩
  have hk : k + 4 ≤ 4 * (w * h) - 4 := by
    simp only [Int.ofNat_eq_coe] at hb1
    have : ((k + 4 : Nat) : Int) + 4 ≤ ((4 * (w * h) : Nat) : Int) := by exact_mod_cast hb1
    omega
  have hlen : 4 * (w * h - 1) = 4 * (w * h) - 4 := by omega
  simp only [headImage, hlen]
  rw [show (Int.ofNat (k + 4)).toNat = k + 4 from rfl]
  have g : ∀ m, m < 4 → (r :: 0 :: 0 :: 0 :: List.replicate (4 * (w * h) - 4) v).getD (k + 4 + m) 0
      = v := by
    intro m hm
    have e : k + 4 + m = (k + m) + 1 + 1 + 1 + 1 := by omega
    rw [e]
    simp only [List.getD_cons_succ]
    rw [List.getD_eq_getElem _ _ (by rw [List.length_replicate]; omega)]
    simp
  have g0 := g 0 (by omega)
  have g1 := g 1 (by omega)
  have g2 := g 2 (by omega)
  have g3 := g 3 (by omega)
  simp only [Nat.add_zero] at g0
  rw [g0, g1, g2, g3]

theorem Compare_eq_wrap (a b : RGBA) (hr : a.Rect = b.Rect) (ha : a.InBounds)
    (hb : b.InBounds) :
    Compare a b = some (sqrtScore (wrapInt64 (Int.ofNat (sumSq a b))), none) := by
  unfold Compare
  rw [if_neg (by simp [RGBA.Bounds, hr]), CompareAccum_eq a b ha hb]; rfl

theorem sumSq_headImage (w h : Nat) (r v r' v' : Byte) (hw : 1 ≤ w) (hh : 1 ≤ h)
    (hfit : 4 * (w * h) < 2 ^ 63) :
    sumSq (headImage w h r v) (headImage w h r' v')
      = sqDiff (widen r) (widen r') + (w - 1) * (4 * sqDiff (widen v) (widen v'))
        + (h - 1) * (w * (4 * sqDiff (widen v) (widen v'))) := by
  have hP : pixelTerm ⟨v, v, v, v⟩ ⟨v', v', v', v'⟩ = 4 * sqDiff (widen v) (widen v') := by
    unfold pixelTerm; simp only []; omega
  have ht : pixelTerm ⟨r, 0, 0, 0⟩ ⟨r', 0, 0, 0⟩ = sqDiff (widen r) (widen r') := by
    unfold pixelTerm; simp [sqDiff_self]
  have hinR : ∀ x y : Int, 0 ≤ x → x < Int.ofNat w → 0 ≤ y → y < Int.ofNat h →
      ∀ q u, Point.In ⟨x, y⟩ (headImage w h q u).Rect = true := by
    intro x y h1 h2 h3 h4 q u
    simp only [Point.In, Bool.and_eq_true, decide_eq_true_eq, headImage]
    omega
  have hrest : ∀ x y : Int, 0 ≤ x → x < Int.ofNat w → 0 ≤ y → y < Int.ofNat h →
      (x ≠ 0 ∨ y ≠ 0) →
      pixelTerm ((headImage w h r v).colorAt x y) ((headImage w h r' v').colorAt x y)
        = 4 * sqDiff (widen v) (widen v') := by
    intro x y h1 h2 h3 h4 hne
    rw [headImage_colorAt_rest w h r v hw hh hfit x y (hinR x y h1 h2 h3 h4 _ _) hne,
      headImage_colorAt_rest w h r' v' hw hh hfit x y (hinR x y h1 h2 h3 h4 _ _) hne, hP]
  unfold sumSq
  have eY : (headImage w h r v).Rect.Min.Y = 0 := rfl
  have eY' : (headImage w h r v).Rect.Max.Y = Int.ofNat h := rfl
  have eX : (headImage w h r v).Rect.Min.X = 0 := rfl
  have eX' : (headImage w h r v).Rect.Max.X = Int.ofNat w := rfl
  rw [eY, eY', eX, eX']
  have hw' : (0 : Int) < Int.ofNat w := by simp only [Int.ofNat_eq_coe]; omega
  have hh' : (0 : Int) < Int.ofNat h := by simp only [Int.ofNat_eq_coe]; omega
  rw [intRange_cons 0 (Int.ofNat h) hh', List.map_cons, List.sum_cons]
  -- the first row
  have row0 : ((intRange 0 (Int.ofNat w)).map (fun x =>
      pixelTerm ((headImage w h r v).colorAt x 0) ((headImage w h r' v').colorAt x 0))).sum
      = sqDiff (widen r) (widen r') + (w - 1) * (4 * sqDiff (widen v) (widen v')) := by
    rw [intRange_cons 0 (Int.ofNat w) hw', List.map_cons, List.sum_cons,
      headImage_colorAt_origin w h r v hw hh hfit,
      headImage_colorAt_origin w h r' v' hw hh hfit, ht]
    rw [sum_map_const_on _ _ (4 * sqDiff (widen v) (widen v'))]
    · rw [length_intRange]
      congr 2
      simp only [Int.ofNat_eq_coe]; omega
    · intro x hx
      have hx' := (mem_intRange _ _ _).1 hx
      exact hrest x 0 (by omega) hx'.2 (le_refl _) hh' (Or.inl (by omega))
  -- the other rows
  have rows : ((intRange (0 + 1) (Int.ofNat h)).map (fun y =>
      ((intRange 0 (Int.ofNat w)).map (fun x =>
        pixelTerm ((headImage w h r v).colorAt x y)
          ((headImage w h r' v').colorAt x y))).sum)).sum
      = (h - 1) * (w * (4 * sqDiff (widen v) (widen v'))) := by
    rw [sum_map_const_on _ _ (w * (4 * sqDiff (widen v) (widen v')))]
    · rw [length_intRange]
      congr 1
      simp only [Int.ofNat_eq_coe]; omega
    · intro y hy
      have hy' := (mem_intRange _ _ _).1 hy
      rw [sum_map_const_on _ _ (4 * sqDiff (widen v) (widen v'))]
      · rw [length_intRange]
        congr 1
      · intro x hx
        have hx' := (mem_intRange _ _ _).1 hx
        exact hrest x y hx'.1 hx'.2 (by omega) hy'.2 (Or.inr (by omega))
  rw [row0, rows]

theorem headImage_agree (w h : Nat) (r r' v : Byte) (j : Nat) (hj : j ≠ 0) :
    (headImage w h r v).Pix.getD j 0 = (headImage w h r' v).Pix.getD j 0 := by
  cases j with
  | zero => exact absurd rfl hj
  | succ k => simp only [headImage, List.getD_cons_succ]

theorem headImage_first (w h : Nat) (r v : Byte) : (headImage w h r v).Pix.getD 0 0 = r := rfl

/-- Evaluation of `roundTo53` above `2 ^ 53` from the binary logarithm. -/
theorem roundTo53_eval (n e : Nat) (h : 2 ^ 53 ≤ n) (he : Nat.log2 n = e + 52) :
    roundTo53 n = if 2 ^ e < 2 * (n % 2 ^ e) ∨ (2 * (n % 2 ^ e) = 2 ^ e ∧ n / 2 ^ e % 2 = 1)
      then (n / 2 ^ e + 1) * 2 ^ e else n / 2 ^ e * 2 ^ e := by
  unfold roundTo53
  rw [if_neg (show ¬ n < 2 ^ 53 by omega)]
  simp only [he, Nat.add_sub_cancel]

theorem sqrtScore_9223372036854662274 :
    sqrtScore (Int.ofNat 9223372036854662274) = 3037000499 := by
  have hr : roundTo53 9223372036854662274 = 9223372036854662144 := by
    rw [roundTo53_eval 9223372036854662274 10 (by norm_num)
      (log2_eq_of _ _ (by norm_num) (by norm_num))]
    norm_num
  rw [sqrtScore_ofNat _ (by norm_num), hr,
    truncSqrt_eval 9223372036854662144 3037000499 31 6369051672525733
      (sqrt_eq_of _ _ (by norm_num) (by norm_num))
      (log2_eq_of _ _ (by norm_num) (by norm_num))
      (sqrt_eq_of _ _ (by norm_num) (by norm_num))]
  norm_num

theorem sumSq_head_near :
    sumSq (headImage 102264247 21 4 255) (headImage 102264247 21 1 0)
      = 9223372036854662274 := by
  rw [sumSq_headImage 102264247 21 4 255 1 0 (by norm_num) (by norm_num) (by norm_num),
    show sqDiff (widen 4) (widen 1) = 148610 by decide,
    show sqDiff (widen 255) (widen 0) = 1073709056 by decide]

theorem sumSq_head_far :
    sumSq (headImage 102264247 21 4 255) (headImage 102264247 21 0 0)
      = 9223372036854777860 := by
  rw [sumSq_headImage 102264247 21 4 255 0 0 (by norm_num) (by norm_num) (by norm_num),
    show sqDiff (widen 4) (widen 0) = 264196 by decide,
    show sqDiff (widen 255) (widen 0) = 1073709056 by decide]

theorem near_far_agree (j : Nat) (hj : j ≠ 0) :
    nearWhite2x2.Pix.getD j 0 = farWhite2x2.Pix.getD j 0 := by
  cases j with
  | zero => exact absurd rfl hj
  | succ k => simp only [nearWhite2x2, farWhite2x2, List.getD_cons_succ]

theorem sqDiffUInt8_comm (x y : Byte) : sqDiffUInt8 x y = sqDiffUInt8 y x := by
  rw [sqDiffUInt8_eq, sqDiffUInt8_eq, Nat.dist_comm]

theorem whiteCorner_subImage : white2x2.SubImage ⟨⟨0, 0⟩, ⟨1, 1⟩⟩ = some whiteCorner := by
  decide

theorem whiteCorner_inBounds : whiteCorner.InBounds := by
  intro x y hin
  simp only [Point.In, Bool.and_eq_true, decide_eq_true_eq, whiteCorner] at hin
  obtain ⟨⟨⟨hx0, hx1⟩, hy0⟩, hy1⟩ := hin
  have hx : x = 0 := by omega
  have hy : y = 0 := by omega
  subst hx; subst hy
  decide

theorem sqrt_16512 : Nat.sqrt 16512 = 128 := by
  symm; rw [Nat.eq_sqrt]; constructor <;> norm_num

set_option maxRecDepth 20000 in
theorem red_accum : CompareAccum redOne redZero = some 16512 := by decide

set_option maxRecDepth 20000 in
theorem red_fast_accum : FastCompareAccum redOne redZero = some 1 := by decide

set_option maxRecDepth 20000 in
theorem corner_fast_accum : FastCompareAccum white1x1 whiteCorner = some 0 := by decide

set_option maxRecDepth 20000 in
theorem corner_fast_panic : FastCompare whiteCorner white1x1 = none := by decide

/-! ## Zero score -/

/-- Widened bytes that differ are at least 257 apart, so their `sqDiff` is at
least `(257 ^ 2) >> 2 = 16512`. -/
theorem sqDiff_widen_ge (u v : Byte) (h : u ≠ v) : 16512 ≤ sqDiff (widen u) (widen v) := by
  rw [sqDiff_eq _ _ (widen_le u) (widen_le v), dist_widen]
  have hd : 1 ≤ Nat.dist u.val v.val := by
    rcases Nat.eq_zero_or_pos (Nat.dist u.val v.val) with h0 | h0
    · exact absurd (Fin.ext (Nat.eq_of_dist_eq_zero h0)) h
    · exact h0
  have h1 : 257 * 1 ≤ 257 * Nat.dist u.val v.val := Nat.mul_le_mul_left _ hd
  have h2 : 257 * 1 * (257 * 1) ≤ 257 * Nat.dist u.val v.val * (257 * Nat.dist u.val v.val) :=
    Nat.mul_le_mul h1 h1
  omega

theorem sqDiff_widen_eq_zero (u v : Byte) : sqDiff (widen u) (widen v) = 0 ↔ u = v := by
  constructor
  · intro h
    by_contra hne
    have := sqDiff_widen_ge u v hne
    omega
  · rintro rfl
    exact sqDiff_self _

theorem pixelTerm_eq_zero (c1 c2 : Color) : pixelTerm c1 c2 = 0 ↔ c1 = c2 := by
  constructor
  · intro h
    unfold pixelTerm at h
    have hR := (sqDiff_widen_eq_zero c1.R c2.R).1 (by omega)
    have hG := (sqDiff_widen_eq_zero c1.G c2.G).1 (by omega)
    have hB := (sqDiff_widen_eq_zero c1.B c2.B).1 (by omega)
    have hA := (sqDiff_widen_eq_zero c1.A c2.A).1 (by omega)
    cases c1; cases c2
    simp only [] at hR hG hB hA
    rw [hR, hG, hB, hA]
  · rintro rfl
    exact pixelTerm_self _

theorem sum_map_eq_zero_iff {α : Type} (l : List α) (g : α → Nat) :
    (l.map g).sum = 0 ↔ ∀ x ∈ l, g x = 0 := by
  induction l with
  | nil => simp
  | cons x xs ih =>
    simp only [List.map_cons, List.sum_cons, Nat.add_eq_zero_iff, ih, List.mem_cons,
      forall_eq_or_imp]

theorem sumSq_eq_zero (a b : RGBA) :
    sumSq a b = 0 ↔
      ∀ x y : Int, Point.In ⟨x, y⟩ a.Rect = true → a.colorAt x y = b.colorAt x y := by
  unfold sumSq
  rw [sum_map_eq_zero_iff]
  constructor
  · intro h x y hin
    simp only [Point.In, Bool.and_eq_true, decide_eq_true_eq] at hin
    have hy := h y ((mem_intRange _ _ _).2 (by omega))
    rw [sum_map_eq_zero_iff] at hy
    exact (pixelTerm_eq_zero _ _).1 (hy x ((mem_intRange _ _ _).2 (by omega)))
  · intro h y hy
    rw [sum_map_eq_zero_iff]
    intro x hx
    have hx' := (mem_intRange _ _ _).1 hx
    have hy' := (mem_intRange _ _ _).1 hy
    apply (pixelTerm_eq_zero _ _).2
    apply h x y
    simp only [Point.In, Bool.and_eq_true, decide_eq_true_eq]
    omega

theorem sqrtScore_eq_zero (n : Nat) (h : n < 2 ^ 63) :
    sqrtScore (Int.ofNat n) = 0 ↔ n = 0 := by
  constructor
  · intro h0
    by_contra hne
    have hpos : 0 < n := Nat.pos_of_ne_zero hne
    have h1 : 0 < Nat.sqrt (roundTo53 n) := Nat.sqrt_pos.2 (roundTo53_pos n hpos)
    have h2 := truncSqrt_ge (roundTo53 n)
    rw [sqrtScore_ofNat n h] at h0
    simp only [Int.ofNat_eq_coe] at h0
    have : truncSqrt (roundTo53 n) = 0 := by exact_mod_cast h0
    omega
  · rintro rfl
    exact sqrtScore_zero

/-! ## The accumulator -/

/-- The two nested loops are one loop over the coordinates in row-major order. -/
theorem foldlM_rows {β : Type} (rows cols : List Int) (f : Int → β → Int → Option β)
    (init : β) :
    (rows.flatMap (fun y => cols.map (fun x => (x, y)))).foldlM
      (fun acc p => f p.2 acc p.1) init
      = rows.foldlM (fun acc y => cols.foldlM (f y) acc) init := by
  induction rows generalizing init with
  | nil => rfl
  | cons y ys ih =>
    rw [List.flatMap_cons, List.foldlM_append, List.foldlM_cons, List.foldlM_map]
    cases h : cols.foldlM (f y) init with
    | none => simp [h]
    | some acc => simp [h, ih]

theorem sum_coords (r : Rectangle) (g : Int → Int → Nat) :
    ((coords r).map (fun p => g p.1 p.2)).sum
      = ((intRange r.Min.Y r.Max.Y).map (fun y =>
          ((intRange r.Min.X r.Max.X).map (fun x => g x y)).sum)).sum := by
  unfold coords
  induction intRange r.Min.Y r.Max.Y with
  | nil => rfl
  | cons y ys ih =>
    rw [List.flatMap_cons, List.map_append, List.sum_append, ih, List.map_cons, List.sum_cons,
      List.map_map]
    rfl

theorem sum_take_le (l : List Nat) (n : Nat) : (l.take n).sum ≤ l.sum := by
  have := List.sum_take_add_sum_drop l n
  omega

theorem comparePartial_le (a b : RGBA) (n : Nat) : comparePartial a b n ≤ sumSq a b := by
  unfold comparePartial
  rw [List.map_take]
  refine le_trans (sum_take_le _ n) (le_of_eq ?_)
  exact sum_coords a.Rect (fun x y => pixelTerm (a.colorAt x y) (b.colorAt x y))

theorem CompareAccum_eq_after (a b : RGBA) :
    CompareAccum a b = compareAccumAfter a b (coords a.Bounds).length := by
  unfold CompareAccum compareAccumAfter
  rw [List.take_length]
  exact (foldlM_rows _ _ (compareStep a b) 0).symm

theorem compareAccumAfter_eq (a b : RGBA) (ha : a.InBounds) (hb : b.InBounds)
    (hT : sumSq a b < 2 ^ 63) (n : Nat) :
    compareAccumAfter a b n = some (Int.ofNat (comparePartial a b n)) := by
  have hle := comparePartial_le a b n
  unfold compareAccumAfter
  rw [foldlM_wrap_sum ((coords a.Bounds).take n)
    (fun p => pixelTerm (a.colorAt p.1 p.2) (b.colorAt p.1 p.2)) _
    (fun acc p _ _ => compareStep_eq a b ha hb p.1 p.2 acc) 0 (by decide)]
  rw [Int.zero_add]
  exact congrArg some (wrapInt64_of_range _
    (by simp only [Int.ofNat_eq_coe]; omega)
    (by unfold comparePartial at hle; simp only [Int.ofNat_eq_coe]; omega))

theorem FastCompareAccum_eq_after (a b : RGBA) :
    FastCompareAccum a b = fastAccumAfter a b a.Pix.length := by
  unfold FastCompareAccum fastAccumAfter
  rw [List.take_range, Nat.min_self]

theorem fastPartial_le (a b : RGBA) (hlen : a.Pix.length = b.Pix.length) (n : Nat) :
    fastPartial a b n ≤ sumSqBytes a b := by
  unfold fastPartial
  rw [sumSqBytes_eq_range a b hlen, List.map_take]
  exact sum_take_le _ n

theorem fastAccumAfter_eq (a b : RGBA) (hlen : a.Pix.length = b.Pix.length)
    (hT : sumSqBytes a b < 2 ^ 63) (n : Nat) :
    fastAccumAfter a b n = some (Int.ofNat (fastPartial a b n)) := by
  have hle := fastPartial_le a b hlen n
  unfold fastAccumAfter
  rw [foldlM_wrap_sum ((List.range a.Pix.length).take n)
    (fun i => sqDiffUInt8 (a.Pix.getD i 0) (b.Pix.getD i 0)) (fastStep a b)
    (fun acc i hi _ => fastStep_eq a b (le_of_eq hlen) acc i (List.mem_of_mem_take hi))
    0 (by decide)]
  rw [Int.zero_add]
  have e : (((List.range a.Pix.length).take n).map
      (fun i => sqDiffUInt8 (a.Pix.getD i 0) (b.Pix.getD i 0))).sum = fastPartial a b n := by
    unfold fastPartial
    simp only [sqDiffUInt8_eq, pow_two]
  rw [e]
  exact congrArg some (wrapInt64_of_range _
    (by simp only [Int.ofNat_eq_coe]; omega) (by simp only [Int.ofNat_eq_coe]; omega))

theorem Canonical.dims (p : RGBA) (hp : p.Canonical) :
    Int.ofNat p.Rect.pixelCount = (p.Rect.Max.X - p.Rect.Min.X) * (p.Rect.Max.Y - p.Rect.Min.Y)
      ∧ p.Pix.length = 4 * p.Rect.pixelCount := by
  obtain ⟨hx, hy, _, hl⟩ := hp
  have e : Int.ofNat p.Rect.pixelCount
      = (p.Rect.Max.X - p.Rect.Min.X) * (p.Rect.Max.Y - p.Rect.Min.Y) := by
    unfold Rectangle.pixelCount
    simp only [Int.ofNat_eq_coe, Nat.cast_mul]
    rw [Int.toNat_of_nonneg (by omega), Int.toNat_of_nonneg (by omega)]
  refine ⟨e, ?_⟩
  have : Int.ofNat p.Pix.length = Int.ofNat (4 * p.Rect.pixelCount) := by
    rw [hl]
    simp only [Int.ofNat_eq_coe, Nat.cast_mul, Nat.cast_ofNat] at e ⊢
    rw [e]; ring
  exact Int.ofNat_inj.1 this

theorem Canonical.inBounds (p : RGBA) (hp : p.Canonical) (hn : p.Rect.pixelCount ≤ 2 ^ 31) :
    p.InBounds := by
  obtain ⟨e, _⟩ := Canonical.dims p hp
  obtain ⟨hx, hy, hs, hl⟩ := hp
  refine canonical_inBounds p _ _ (by omega) (by omega) rfl rfl hs hl ?_
  have : (Int.ofNat p.Rect.pixelCount) ≤ 2 ^ 31 := by
    simp only [Int.ofNat_eq_coe]; exact_mod_cast hn
  rw [e] at this
  rw [mul_assoc]
  omega

theorem black2x2_canonical : black2x2.Canonical := by
  unfold RGBA.Canonical; decide

theorem white2x2_canonical : white2x2.Canonical := by
  unfold RGBA.Canonical; decide

/-! ## The claims -/

/-- C1, the claim fails: for the 2060x2044 image of bytes 128 against the
image of bytes 0 the total is `T = 4556530669322240`, whose floored square root
is 67502078, and `Compare` returns 67502079 (the `float64` square root rounds
up to the next integer). -/
theorem compare_floor_sqrt_counterexample :
    (uniform 2060 2044 128).Bounds = (uniform 2060 2044 0).Bounds ∧
    sumSq (uniform 2060 2044 128) (uniform 2060 2044 0) = 4556530669322240 ∧
    Nat.sqrt 4556530669322240 = 67502078 ∧
    Compare (uniform 2060 2044 128) (uniform 2060 2044 0) = some (67502079, none) ∧
    Compare (uniform 2060 2044 128) (uniform 2060 2044 0)
      ≠ some (Int.ofNat (Nat.sqrt (sumSq (uniform 2060 2044 128) (uniform 2060 2044 0))), none) := by
  have hs : Nat.sqrt 4556530669322240 = 67502078 := sqrt_eq_of _ _ (by norm_num) (by norm_num)
  have hc : Compare (uniform 2060 2044 128) (uniform 2060 2044 0) = some (67502079, none) := by
    rw [Compare_eq (uniform 2060 2044 128) (uniform 2060 2044 0) rfl
      (uniform_inBounds _ _ _ (by norm_num))
      (uniform_inBounds _ _ _ (by norm_num)) (by rw [sumSq_grey_black]; norm_num),
      sumSq_grey_black, sqrtScore_4556530669322240]
  refine ⟨rfl, sumSq_grey_black, hs, hc, ?_⟩
  rw [hc, sumSq_grey_black, hs]
  decide

/-- C1, amended. For two well-formed RGBA images with equal bounds whose total
`T` (the sum over the coordinates of the bounds of the four `sqDiff` terms of
the 16-bit channel values, alpha included) is below `2 ^ 52`, `Compare` returns
no error and the score `⌊√T⌋`. -/
theorem compare_floor_sqrt (a b : RGBA) (hr : a.Bounds = b.Bounds) (ha : a.InBounds)
    (hb : b.InBounds) (hT : sumSq a b < 2 ^ 52) :
    Compare a b = some (Int.ofNat (Nat.sqrt (sumSq a b)), none) := by
  rw [Compare_eq a b hr ha hb (lt_trans hT (by norm_num)), sqrtScore_eq_sqrt _ hT]

theorem compare_floor_sqrt_witness :
    black2x2.Bounds = white2x2.Bounds ∧ black2x2.InBounds ∧ white2x2.InBounds ∧
    sumSq black2x2 white2x2 < 2 ^ 52 ∧
    Compare black2x2 white2x2 = some (Int.ofNat (Nat.sqrt (sumSq black2x2 white2x2)), none) :=
  have hT : sumSq black2x2 white2x2 < 2 ^ 52 :=
    lt_of_le_of_lt (sumSq_le black2x2 white2x2) (by decide)
  ⟨rfl, black2x2_inBounds, white2x2_inBounds, hT,
    compare_floor_sqrt black2x2 white2x2 rfl black2x2_inBounds white2x2_inBounds hT⟩

/-- C2, the claim fails: for the 129010x134222 canonical buffer of bytes 255
against the one of bytes 0 the sum of the squared byte differences is
`4503886455222000`, whose floored square root is 67111000, and `FastCompare`
returns 67111001. -/
theorem fast_floor_sqrt_counterexample :
    (uniform 129010 134222 255).Bounds = (uniform 129010 134222 0).Bounds ∧
    (uniform 129010 134222 255).Pix.length = 129010 * 134222 * 4 ∧
    (uniform 129010 134222 0).Pix.length = 129010 * 134222 * 4 ∧
    sumSqBytes (uniform 129010 134222 255) (uniform 129010 134222 0) = 4503886455222000 ∧
    Nat.sqrt 4503886455222000 = 67111000 ∧
    FastCompare (uniform 129010 134222 255) (uniform 129010 134222 0)
      = some (67111001, none) ∧
    FastCompare (uniform 129010 134222 255) (uniform 129010 134222 0)
      ≠ some (Int.ofNat (Nat.sqrt
          (sumSqBytes (uniform 129010 134222 255) (uniform 129010 134222 0))), none) := by
  have hs : Nat.sqrt 4503886455222000 = 67111000 := sqrt_eq_of _ _ (by norm_num) (by norm_num)
  have hc : FastCompare (uniform 129010 134222 255) (uniform 129010 134222 0)
      = some (67111001, none) := by
    rw [FastCompare_eq (uniform 129010 134222 255) (uniform 129010 134222 0) rfl
      (by rw [uniform_length, uniform_length])
      (by rw [sumSqBytes_white_black]; norm_num),
      sumSqBytes_white_black, sqrtScore_4503886455222000]
  refine ⟨rfl, by rw [uniform_length], by rw [uniform_length],
    sumSqBytes_white_black, hs, hc, ?_⟩
  rw [hc, sumSqBytes_white_black, hs]
  decide

/-- C2, amended. For two canonical RGBA buffers with equal bounds (each `Pix`
of length width * height * 4) whose sum `T` of squared byte differences is
below `2 ^ 52`, `FastCompare` returns no error and the score `⌊√T⌋`. -/
theorem fast_floor_sqrt (a b : RGBA) (hr : a.Bounds = b.Bounds)
    (hla : Int.ofNat a.Pix.length = a.Bounds.Dx * a.Bounds.Dy * 4)
    (hlb : Int.ofNat b.Pix.length = b.Bounds.Dx * b.Bounds.Dy * 4)
    (hT : sumSqBytes a b < 2 ^ 52) :
    FastCompare a b = some (Int.ofNat (Nat.sqrt (sumSqBytes a b)), none) := by
  have hlen : a.Pix.length = b.Pix.length := by
    rw [← hr] at hlb
    exact Int.ofNat_inj.1 (hla.trans hlb.symm)
  rw [FastCompare_eq a b hr hlen (lt_trans hT (by norm_num)), sqrtScore_eq_sqrt _ hT]

theorem fast_floor_sqrt_witness :
    black2x2.Bounds = white2x2.Bounds ∧
    Int.ofNat black2x2.Pix.length = black2x2.Bounds.Dx * black2x2.Bounds.Dy * 4 ∧
    Int.ofNat white2x2.Pix.length = white2x2.Bounds.Dx * white2x2.Bounds.Dy * 4 ∧
    sumSqBytes black2x2 white2x2 < 2 ^ 52 ∧
    FastCompare black2x2 white2x2
      = some (Int.ofNat (Nat.sqrt (sumSqBytes black2x2 white2x2)), none) :=
  ⟨rfl, by decide, by decide, by decide,
    fast_floor_sqrt black2x2 white2x2 rfl (by decide) (by decide) (by decide)⟩

/-- C3. When the bounds of the two images differ, `Compare` and `FastCompare`
both return score 0 with the bounds-mismatch error, whatever the pixel
buffers and strides are (also empty buffers, on which any read would panic). -/
theorem bounds_mismatch_error (r1 r2 : Rectangle) (h : r1 ≠ r2) (pix1 pix2 : List Byte)
    (stride1 stride2 : Int) :
    Compare ⟨pix1, stride1, r1⟩ ⟨pix2, stride2, r2⟩ = some (0, some ⟨r1, r2⟩) ∧
    FastCompare ⟨pix1, stride1, r1⟩ ⟨pix2, stride2, r2⟩ = some (0, some ⟨r1, r2⟩) := by
  constructor
  · unfold Compare; rw [if_pos (by simpa [RGBA.Bounds] using h)]; rfl
  · unfold FastCompare; rw [if_pos (by simpa [RGBA.Bounds] using h)]; rfl

theorem bounds_mismatch_error_witness :
    black2x2.Rect ≠ clear3x3.Rect ∧
    Compare black2x2 clear3x3 = some (0, some ⟨black2x2.Rect, clear3x3.Rect⟩) ∧
    FastCompare black2x2 clear3x3 = some (0, some ⟨black2x2.Rect, clear3x3.Rect⟩) :=
  ⟨by decide, bounds_mismatch_error black2x2.Rect clear3x3.Rect (by decide) black2x2.Pix
    clear3x3.Pix black2x2.Stride clear3x3.Stride⟩

/-- C4, the claim fails: `Compare` of an RGBA image with itself panics when
the buffer does not back every pixel of the bounds (here 2x2 pixels over a
buffer of one pixel), and `ConvertToRGBA` panics, so that there is nothing for
`FastCompare` to compare, on an image with the bounds of `image.Uniform`
(buffer length above the `int` range) and on an image of `2^25 x 2^25` pixels
(buffer length above `maxAlloc`), whatever memory the machine has. -/
theorem identity_scores_zero_counterexample :
    Compare truncated2x2 truncated2x2 = none ∧
    Compare truncated2x2 truncated2x2 ≠ some (0, none) ∧
    (∀ memLimit : Nat, ConvertToRGBA memLimit uniformWhite = none) ∧
    (∀ memLimit : Nat, ConvertToRGBA memLimit wideBlack = none) :=
  ⟨Compare_truncated2x2, by rw [Compare_truncated2x2]; exact Option.noConfusion,
    ConvertToRGBA_uniformWhite, ConvertToRGBA_wideBlack⟩

/-- C4, amended. A well-formed RGBA image compared with itself by `Compare`
scores 0 without error, and an image that is an RGBA image already, or whose
bounds are well-formed with a buffer that can be allocated, converted and
compared with itself by `FastCompare`, scores 0 without error. -/
theorem identity_scores_zero (memLimit : Nat) (p : RGBA) (hp : p.InBounds) (img : Image)
    (hf : img.Fits memLimit) :
    Compare p p = some (0, none) ∧
    ∃ r, ConvertToRGBA memLimit img = some r ∧ FastCompare r r = some (0, none) := by
  refine ⟨Compare_self p hp, ?_⟩
  cases img with
  | rgba q => exact ⟨q, rfl, FastCompare_self q⟩
  | other bounds colorAt =>
    obtain ⟨r, e, _⟩ := ConvertToRGBA_other memLimit bounds colorAt hf
    exact ⟨r, e, FastCompare_self r⟩

theorem identity_scores_zero_witness :
    black2x2.InBounds ∧ ramp.Fits (2 ^ 30) ∧ Compare black2x2 black2x2 = some (0, none) ∧
    ∃ r, ConvertToRGBA (2 ^ 30) ramp = some r ∧ FastCompare r r = some (0, none) :=
  ⟨black2x2_inBounds, ramp_fits,
    identity_scores_zero (2 ^ 30) black2x2 black2x2_inBounds ramp ramp_fits⟩

/-- C5. For two RGBA images with equal bounds `Compare` gives the same outcome
in both argument orders; when the two images are well-formed this outcome is a
score without error, the same score in both orders. -/
theorem compare_symmetric (a b : RGBA) (hr : a.Bounds = b.Bounds) :
    Compare a b = Compare b a ∧
    (a.InBounds → b.InBounds →
      ∃ s, Compare a b = some (s, none) ∧ Compare b a = some (s, none)) := by
  refine ⟨Compare_comm a b hr, fun ha hb => ?_⟩
  have h := Compare_eq_wrap a b hr ha hb
  exact ⟨_, h, by rw [← Compare_comm a b hr]; exact h⟩

theorem compare_symmetric_witness :
    black2x2.Bounds = white2x2.Bounds ∧ black2x2.InBounds ∧ white2x2.InBounds ∧
    Compare black2x2 white2x2 = Compare white2x2 black2x2 ∧
    ∃ s, Compare black2x2 white2x2 = some (s, none) ∧ Compare white2x2 black2x2 = some (s, none) :=
  ⟨rfl, black2x2_inBounds, white2x2_inBounds, (compare_symmetric black2x2 white2x2 rfl).1,
    (compare_symmetric black2x2 white2x2 rfl).2 black2x2_inBounds white2x2_inBounds⟩

/-- C6. `ConvertToRGBA` is idempotent, returns an RGBA argument itself, and
so leaves `FastCompare` of two RGBA images unchanged; this holds whatever
memory the machine has. -/
theorem convert_idempotent :
    (∀ (memLimit : Nat) (img : Image),
      (ConvertToRGBA memLimit img).bind (fun r => ConvertToRGBA memLimit (Image.rgba r))
        = ConvertToRGBA memLimit img) ∧
    (∀ (memLimit : Nat) (p : RGBA), ConvertToRGBA memLimit (Image.rgba p) = some p) ∧
    (∀ (memLimit : Nat) (a b : RGBA),
      ((ConvertToRGBA memLimit (Image.rgba a)).bind fun a' =>
        (ConvertToRGBA memLimit (Image.rgba b)).bind fun b' => FastCompare a' b')
        = FastCompare a b) := by
  refine ⟨?_, fun _ _ => rfl, fun _ _ _ => rfl⟩
  intro memLimit img
  cases h : ConvertToRGBA memLimit img with
  | none => rfl
  | some r => rfl

/-- C7, the claim fails: an RGBA image whose bounds start at `(1, 1)` is
returned as it is, bounds included, whatever memory the machine has. -/
theorem convert_origin_counterexample :
    ∃ r, (∀ memLimit : Nat, ConvertToRGBA memLimit (Image.rgba pixelAt11) = some r) ∧
      r.Bounds.Min = ⟨1, 1⟩ ∧ r.Bounds.Min ≠ ⟨0, 0⟩ :=
  ⟨pixelAt11, fun _ => rfl, rfl, by decide⟩

/-- C7, amended. For an image that is not an RGBA image, with well-formed
bounds whose buffer can be allocated (its length `4 * Dx * Dy` fits an `int`
and is at most `maxAlloc` and at most what the machine can provide),
`ConvertToRGBA` returns an image whose bounds start at `(0, 0)` and have the
dimensions of the argument; an RGBA image is returned with its bounds
unchanged. -/
theorem convert_origin (memLimit : Nat) (bounds : Rectangle)
    (colorAt : Int → Int → Nat × Nat × Nat × Nat) (hf : bounds.Fits memLimit) (p : RGBA) :
    (∃ r, ConvertToRGBA memLimit (Image.other bounds colorAt) = some r ∧
      r.Bounds.Min = ⟨0, 0⟩ ∧ r.Bounds.Max = ⟨bounds.Dx, bounds.Dy⟩) ∧
    (∃ r, ConvertToRGBA memLimit (Image.rgba p) = some r ∧ r.Bounds = p.Bounds) := by
  refine ⟨?_, p, rfl, rfl⟩
  obtain ⟨r, e, er, _⟩ := ConvertToRGBA_other memLimit bounds colorAt hf
  exact ⟨r, e, by simp [RGBA.Bounds, er], by simp [RGBA.Bounds, er]⟩

theorem convert_origin_witness :
    Rectangle.Fits ⟨⟨3, 5⟩, ⟨5, 8⟩⟩ (2 ^ 30) ∧
    (∃ r, ConvertToRGBA (2 ^ 30) ramp = some r ∧ r.Bounds.Min = ⟨0, 0⟩ ∧
      r.Bounds.Max = ⟨2, 3⟩) ∧
    (∃ r, ConvertToRGBA (2 ^ 30) (Image.rgba pixelAt11) = some r ∧
      r.Bounds = pixelAt11.Bounds) :=
  ⟨ramp_fits, convert_origin (2 ^ 30) ⟨⟨3, 5⟩, ⟨5, 8⟩⟩ _ ramp_fits pixelAt11⟩

/-- C8. For the 2x2 opaque black image (16-bit channels 0, 0, 0, 65535 at
every pixel) and the 2x2 opaque white image (65535 in every channel) the
accumulated total is `4 * 3 * ((65535 ^ 2) >> 2) = 12884508672`, the alpha
channel contributes `sqDiff 65535 65535 = 0`, and `Compare` returns
`⌊√12884508672⌋ = 113509`. -/
theorem black_white_score :
    (∀ p ∈ [((0 : Int), (0 : Int)), (1, 0), (0, 1), (1, 1)],
      (black2x2.At p.1 p.2).map Color.RGBA = some (0, 0, 0, 65535) ∧
      (white2x2.At p.1 p.2).map Color.RGBA = some (65535, 65535, 65535, 65535)) ∧
    Compare black2x2 white2x2 = some (113509, none) ∧
    CompareAccum black2x2 white2x2 = some (Int.ofNat (4 * 3 * ((65535 ^ 2) >>> 2))) ∧
    4 * 3 * ((65535 ^ 2) >>> 2) = 12884508672 ∧ Nat.sqrt 12884508672 = 113509 ∧
    sqDiff 65535 65535 = 0 := by
  have hacc := black_white_accum
  refine ⟨by decide, ?_, hacc, by decide, sqrt_12884508672, by decide⟩
  unfold Compare
  rw [if_neg (by decide), hacc]
  have h := sqrtScore_eq_sqrt 12884508672 (by norm_num)
  rw [sqrt_12884508672] at h
  exact congrArg (fun s => some (s, none)) h

/-- C9, the claim fails: three 102264247x21 canonical images, `a` of bytes 255
with first pixel `(4, 0, 0, 0)`, `b1` and `b2` of bytes 0 with first pixels
`(1, 0, 0, 0)` and `(0, 0, 0, 0)`.  `b1` and `b2` differ in the red byte of the
first pixel only, `|4 - 1| ≤ |4 - 0|`, and yet `Compare a b1 = 3037000499`
while `Compare a b2 = -2 ^ 63`: the total `2 ^ 63 + 2052` overflows `int64`. -/
theorem compare_monotone_counterexample :
    (headImage 102264247 21 4 255).Bounds = (headImage 102264247 21 1 0).Bounds ∧
    (headImage 102264247 21 4 255).Bounds = (headImage 102264247 21 0 0).Bounds ∧
    (∀ j, j ≠ 0 → (headImage 102264247 21 1 0).Pix.getD j 0
      = (headImage 102264247 21 0 0).Pix.getD j 0) ∧
    Nat.dist ((headImage 102264247 21 4 255).Pix.getD 0 0).val
        ((headImage 102264247 21 1 0).Pix.getD 0 0).val
      ≤ Nat.dist ((headImage 102264247 21 4 255).Pix.getD 0 0).val
        ((headImage 102264247 21 0 0).Pix.getD 0 0).val ∧
    Compare (headImage 102264247 21 4 255) (headImage 102264247 21 1 0)
      = some (3037000499, none) ∧
    Compare (headImage 102264247 21 4 255) (headImage 102264247 21 0 0)
      = some (-9223372036854775808, none) ∧
    ¬ ((3037000499 : Int) ≤ -9223372036854775808) := by
  have ha := headImage_inBounds 102264247 21 4 255 (by norm_num) (by norm_num) (by norm_num)
  have hb1 := headImage_inBounds 102264247 21 1 0 (by norm_num) (by norm_num) (by norm_num)
  have hb2 := headImage_inBounds 102264247 21 0 0 (by norm_num) (by norm_num) (by norm_num)
  refine ⟨rfl, rfl, fun j hj => headImage_agree _ _ _ _ _ j hj, ?_, ?_, ?_, by decide⟩
  · rw [headImage_first, headImage_first, headImage_first]; decide
  · rw [Compare_eq (headImage 102264247 21 4 255) (headImage 102264247 21 1 0) rfl ha hb1
      (by rw [sumSq_head_near]; norm_num), sumSq_head_near, sqrtScore_9223372036854662274]
  · rw [Compare_eq_wrap (headImage 102264247 21 4 255) (headImage 102264247 21 0 0) rfl ha hb2,
      sumSq_head_far, sqrtScore_of_neg _ (by decide)]
    rfl

/-- C9, amended. Let `a`, `b1`, `b2` be RGBA images with the same bounds,
stride and buffer length, `a` well-formed, of at most `2 ^ 31` pixels and
`4 * 2 ^ 31` bytes, and let `b1` and `b2` agree on every byte except byte `i`
(channel `i % 4` of pixel `i / 4` in a canonical buffer).  If the byte of `a`
is at most as far from that of `b1` as from that of `b2`, both comparators
return, and score `b1` at most as high as `b2`. -/
theorem compare_monotone (a b1 b2 : RGBA) (i : Nat)
    (hr1 : a.Bounds = b1.Bounds) (hr2 : a.Bounds = b2.Bounds)
    (hs1 : a.Stride = b1.Stride) (hs2 : a.Stride = b2.Stride)
    (hl1 : a.Pix.length = b1.Pix.length) (hl2 : a.Pix.length = b2.Pix.length)
    (ha : a.InBounds) (hn : a.Bounds.pixelCount ≤ 2 ^ 31) (hlen : a.Pix.length ≤ 4 * 2 ^ 31)
    (hagree : ∀ j, j ≠ i → b1.Pix.getD j 0 = b2.Pix.getD j 0)
    (hd : Nat.dist (a.Pix.getD i 0).val (b1.Pix.getD i 0).val
      ≤ Nat.dist (a.Pix.getD i 0).val (b2.Pix.getD i 0).val) :
    ∃ s1 s2 f1 f2 : Int,
      Compare a b1 = some (s1, none) ∧ Compare a b2 = some (s2, none) ∧ s1 ≤ s2 ∧
      FastCompare a b1 = some (f1, none) ∧ FastCompare a b2 = some (f2, none) ∧ f1 ≤ f2 := by
  have hbyte : ∀ j, Nat.dist (a.Pix.getD j 0).val (b1.Pix.getD j 0).val
      ≤ Nat.dist (a.Pix.getD j 0).val (b2.Pix.getD j 0).val := by
    intro j
    by_cases hj : j = i
    · rw [hj]; exact hd
    · rw [hagree j hj]
  have hb1 := inBounds_of_same_layout a b1 hr1 hs1 hl1 ha
  have hb2 := inBounds_of_same_layout a b2 hr2 hs2 hl2 ha
  have hT1 := sumSq_lt_of_pixelCount a b1 hn
  have hT2 := sumSq_lt_of_pixelCount a b2 hn
  have hF : ∀ b, sumSqBytes a b < 2 ^ 63 := by
    intro b
    have h1 := sumSqBytes_le a b
    have h2 : a.Pix.length * 65025 ≤ 4 * 2 ^ 31 * 65025 := Nat.mul_le_mul_right _ hlen
    omega
  refine ⟨_, _, _, _, Compare_eq a b1 hr1 ha hb1 hT1, Compare_eq a b2 hr2 ha hb2 hT2, ?_,
    FastCompare_eq a b1 hr1 hl1 (hF b1), FastCompare_eq a b2 hr2 hl2 (hF b2), ?_⟩
  · exact sqrtScore_mono _ _ (sumSq_mono a b1 b2 hr1 hr2 hs1 hs2 hl1 hl2 ha hbyte) hT2
  · exact sqrtScore_mono _ _ (sumSqBytes_mono a b1 b2 hl1 hl2 hbyte) (hF b2)

theorem compare_monotone_witness :
    white2x2.Bounds = nearWhite2x2.Bounds ∧ white2x2.Bounds = farWhite2x2.Bounds ∧
    white2x2.Stride = nearWhite2x2.Stride ∧ white2x2.Stride = farWhite2x2.Stride ∧
    white2x2.Pix.length = nearWhite2x2.Pix.length ∧
    white2x2.Pix.length = farWhite2x2.Pix.length ∧
    white2x2.InBounds ∧ white2x2.Bounds.pixelCount ≤ 2 ^ 31 ∧
    white2x2.Pix.length ≤ 4 * 2 ^ 31 ∧
    (∀ j, j ≠ 0 → nearWhite2x2.Pix.getD j 0 = farWhite2x2.Pix.getD j 0) ∧
    Nat.dist (white2x2.Pix.getD 0 0).val (nearWhite2x2.Pix.getD 0 0).val
      ≤ Nat.dist (white2x2.Pix.getD 0 0).val (farWhite2x2.Pix.getD 0 0).val ∧
    ∃ s1 s2 f1 f2 : Int,
      Compare white2x2 nearWhite2x2 = some (s1, none) ∧
      Compare white2x2 farWhite2x2 = some (s2, none) ∧ s1 ≤ s2 ∧
      FastCompare white2x2 nearWhite2x2 = some (f1, none) ∧
      FastCompare white2x2 farWhite2x2 = some (f2, none) ∧ f1 ≤ f2 :=
  ⟨rfl, rfl, rfl, rfl, rfl, rfl, white2x2_inBounds, by decide, by decide, near_far_agree,
    by decide,
    compare_monotone white2x2 nearWhite2x2 farWhite2x2 0 rfl rfl rfl rfl rfl rfl
      white2x2_inBounds (by decide) (by decide) near_far_agree (by decide)⟩

/-- C10, the claim fails: 0 and 1 are unequal 16-bit values on which `sqDiff`
is 0, so "`sqDiff x y = 0` iff `x = y`" is false at `x = 0`, `y = 1`. -/
theorem sqDiff_zero_counterexample :
    (0 : Nat) ≤ 65535 ∧ (1 : Nat) ≤ 65535 ∧ sqDiff 0 1 = 0 ∧ (0 : Nat) ≠ 1 ∧
    ¬ (sqDiff 0 1 = 0 ↔ (0 : Nat) = 1) := by
  refine ⟨by norm_num, by norm_num, by decide, by decide, ?_⟩
  intro h
  have := h.1 (by decide)
  omega

/-- C10, amended. For 16-bit `x`, `y`, `sqDiff x y = 0` exactly when `x` and
`y` differ by at most 1; for bytes, `sqDiffUInt8 x y = 0` exactly when `x = y`. -/
theorem kernels_zero_iff (x y : Nat) (hx : x ≤ 65535) (hy : y ≤ 65535) (u v : Byte) :
    (sqDiff x y = 0 ↔ Nat.dist x y ≤ 1) ∧ (sqDiffUInt8 u v = 0 ↔ u = v) := by
  constructor
  · rw [sqDiff_eq x y hx hy]
    generalize Nat.dist x y = d
    constructor
    · intro h
      by_contra hc
      have : 2 * 2 ≤ d * d := Nat.mul_le_mul (by omega) (by omega)
      omega
    · intro h
      have : d * d ≤ 1 * 1 := Nat.mul_le_mul h h
      omega
  · rw [sqDiffUInt8_eq]
    constructor
    · intro h
      have hd : Nat.dist u.val v.val = 0 := by
        rcases Nat.mul_eq_zero.1 h with h | h <;> exact h
      exact Fin.ext (Nat.eq_of_dist_eq_zero hd)
    · rintro rfl
      simp [Nat.dist]

theorem kernels_zero_iff_witness :
    (300 : Nat) ≤ 65535 ∧ (301 : Nat) ≤ 65535 ∧
    (sqDiff 300 301 = 0 ↔ Nat.dist 300 301 ≤ 1) ∧ (sqDiffUInt8 7 9 = 0 ↔ (7 : Byte) = 9) :=
  ⟨by norm_num, by norm_num, kernels_zero_iff 300 301 (by norm_num) (by norm_num) 7 9⟩

/-- C11. For 16-bit `x` and `y` the `uint32` product `d * d` of the absolute
difference `d` does not wrap, so `sqDiff x y` is `d * d` shifted right by 2,
that is `⌊(x - y) ^ 2 / 4⌋` in exact integer arithmetic. -/
theorem sqDiff_exact (x y : Nat) (hx : x ≤ 0xffff) (hy : y ≤ 0xffff) :
    (if x > y then x - y else y - x) * (if x > y then x - y else y - x) < 2 ^ 32 ∧
    sqDiff x y = ((if x > y then x - y else y - x) ^ 2) >>> 2 ∧
    Int.ofNat (sqDiff x y) = (Int.ofNat x - Int.ofNat y) ^ 2 / 4 := by
  have hdist : (if x > y then x - y else y - x) = Nat.dist x y := by
    unfold Nat.dist; split <;> omega
  have hd : Nat.dist x y ≤ 65535 := by unfold Nat.dist; omega
  have hdd : Nat.dist x y * Nat.dist x y ≤ 65535 * 65535 := Nat.mul_le_mul hd hd
  rw [hdist, sqDiff_eq x y hx hy]
  refine ⟨by omega, ?_, ?_⟩
  · rw [Nat.shiftRight_eq_div_pow, pow_two]
  · have hsq : (Int.ofNat x - Int.ofNat y) ^ 2
        = Int.ofNat (Nat.dist x y * Nat.dist x y) := by
      simp only [Int.ofNat_eq_coe, Nat.cast_mul]
      rcases Nat.le_total x y with h | h
      · rw [Nat.dist_eq_sub_of_le h, Nat.cast_sub h]; ring
      · rw [Nat.dist_eq_sub_of_le_right h, Nat.cast_sub h]; ring
    rw [hsq]
    simp only [Int.ofNat_eq_coe]
    norm_cast

theorem sqDiff_exact_witness :
    (65535 : Nat) ≤ 0xffff ∧ (0 : Nat) ≤ 0xffff ∧
    (if (65535 : Nat) > 0 then 65535 - 0 else 0 - 65535)
      * (if (65535 : Nat) > 0 then 65535 - 0 else 0 - 65535) < 2 ^ 32 ∧
    sqDiff 65535 0 = ((if (65535 : Nat) > 0 then 65535 - 0 else 0 - 65535) ^ 2) >>> 2 ∧
    Int.ofNat (sqDiff 65535 0) = (Int.ofNat 65535 - Int.ofNat 0) ^ 2 / 4 :=
  ⟨by norm_num, by norm_num, sqDiff_exact 65535 0 (by norm_num) (by norm_num)⟩

/-- C12. For eight 16-bit channel values the sum of the four `sqDiff` terms
is below `2 ^ 32`, so the `uint32` additions of line 48 do not wrap: the sum
reduced modulo `2 ^ 32` is the sum, and for any two colours the `uint32` sum
`pixelSum` that `Compare` computes is the exact sum `pixelTerm`. -/
theorem pixel_sum_no_wrap (r1 r2 g1 g2 b1 b2 a1 a2 : Nat)
    (hr1 : r1 ≤ 0xffff) (hr2 : r2 ≤ 0xffff) (hg1 : g1 ≤ 0xffff) (hg2 : g2 ≤ 0xffff)
    (hb1 : b1 ≤ 0xffff) (hb2 : b2 ≤ 0xffff) (ha1 : a1 ≤ 0xffff) (ha2 : a2 ≤ 0xffff) :
    sqDiff r1 r2 + sqDiff g1 g2 + sqDiff b1 b2 + sqDiff a1 a2 < 2 ^ 32 ∧
    (sqDiff r1 r2 + sqDiff g1 g2 + sqDiff b1 b2 + sqDiff a1 a2) % 2 ^ 32
      = sqDiff r1 r2 + sqDiff g1 g2 + sqDiff b1 b2 + sqDiff a1 a2 ∧
    (∀ c1 c2 : Color, pixelSum c1 c2 = pixelTerm c1 c2) := by
  have h1 := sqDiff_le r1 r2 hr1 hr2
  have h2 := sqDiff_le g1 g2 hg1 hg2
  have h3 := sqDiff_le b1 b2 hb1 hb2
  have h4 := sqDiff_le a1 a2 ha1 ha2
  have hlt : sqDiff r1 r2 + sqDiff g1 g2 + sqDiff b1 b2 + sqDiff a1 a2 < 2 ^ 32 := by omega
  exact ⟨hlt, Nat.mod_eq_of_lt hlt, pixelSum_eq⟩

theorem pixel_sum_no_wrap_witness :
    (65535 : Nat) ≤ 0xffff ∧ (0 : Nat) ≤ 0xffff ∧
    sqDiff 65535 0 + sqDiff 0 65535 + sqDiff 65535 0 + sqDiff 0 65535 < 2 ^ 32 ∧
    (sqDiff 65535 0 + sqDiff 0 65535 + sqDiff 65535 0 + sqDiff 0 65535) % 2 ^ 32
      = sqDiff 65535 0 + sqDiff 0 65535 + sqDiff 65535 0 + sqDiff 0 65535 ∧
    (∀ c1 c2 : Color, pixelSum c1 c2 = pixelTerm c1 c2) :=
  ⟨by norm_num, by norm_num,
    pixel_sum_no_wrap 65535 0 0 65535 65535 0 0 65535 (by norm_num) (by norm_num)
      (by norm_num) (by norm_num) (by norm_num) (by norm_num) (by norm_num) (by norm_num)⟩

/-- C13. Both kernels are commutative: `sqDiff x y = sqDiff y x` for all
`uint32` values (indeed for all naturals), and `sqDiffUInt8 x y =
sqDiffUInt8 y x` for all bytes. -/
theorem kernels_commutative :
    (∀ x y : Nat, sqDiff x y = sqDiff y x) ∧
    (∀ x y : Byte, sqDiffUInt8 x y = sqDiffUInt8 y x) :=
  ⟨sqDiff_comm, sqDiffUInt8_comm⟩

/-- C14. For two canonical RGBA images with equal bounds and at most `2 ^ 31`
pixels the `int64` accumulator never overflows, in `Compare` and in
`FastCompare`: after any number of loop iterations it is the exact sum of the
per-pixel (per-byte) terms added so far, below `2 ^ 63`; at the end it is the
exact total; and both returned scores are non-negative. -/
theorem accumulator_exact (a b : RGBA) (hr : a.Bounds = b.Bounds) (ha : a.Canonical)
    (hb : b.Canonical) (hn : a.Bounds.pixelCount ≤ 2 ^ 31) :
    (∀ n, compareAccumAfter a b n = some (Int.ofNat (comparePartial a b n)) ∧
      comparePartial a b n < 2 ^ 63) ∧
    CompareAccum a b = compareAccumAfter a b (coords a.Bounds).length ∧
    CompareAccum a b = some (Int.ofNat (sumSq a b)) ∧ sumSq a b < 2 ^ 63 ∧
    (∀ n, fastAccumAfter a b n = some (Int.ofNat (fastPartial a b n)) ∧
      fastPartial a b n < 2 ^ 63) ∧
    FastCompareAccum a b = fastAccumAfter a b a.Pix.length ∧
    FastCompareAccum a b = some (Int.ofNat (sumSqBytes a b)) ∧ sumSqBytes a b < 2 ^ 63 ∧
    ∃ s f : Int, Compare a b = some (s, none) ∧ 0 ≤ s ∧
      FastCompare a b = some (f, none) ∧ 0 ≤ f := by
  have hnb : b.Rect.pixelCount ≤ 2 ^ 31 := by
    have : a.Rect = b.Rect := hr
    rw [← this]; exact hn
  have hia := Canonical.inBounds a ha hn
  have hib := Canonical.inBounds b hb hnb
  have hla := (Canonical.dims a ha).2
  have hlb := (Canonical.dims b hb).2
  have hlen : a.Pix.length = b.Pix.length := by
    have : a.Rect = b.Rect := hr
    rw [hla, hlb, this]
  have hT := sumSq_lt_of_pixelCount a b hn
  have hF : sumSqBytes a b < 2 ^ 63 := by
    have h1 := sumSqBytes_le a b
    have h2 : a.Rect.pixelCount ≤ 2 ^ 31 := hn
    have h3 : a.Pix.length * 65025 ≤ 4 * 2 ^ 31 * 65025 :=
      Nat.mul_le_mul_right _ (by omega)
    omega
  have hCA : CompareAccum a b = some (Int.ofNat (sumSq a b)) := by
    rw [CompareAccum_eq a b hia hib]
    exact congrArg some (wrapInt64_of_range _
      (by simp only [Int.ofNat_eq_coe]; omega) (by simp only [Int.ofNat_eq_coe]; omega))
  have hFA : FastCompareAccum a b = some (Int.ofNat (sumSqBytes a b)) := by
    rw [FastCompareAccum_eq a b hlen]
    exact congrArg some (wrapInt64_of_range _
      (by simp only [Int.ofNat_eq_coe]; omega) (by simp only [Int.ofNat_eq_coe]; omega))
  refine ⟨fun n => ⟨compareAccumAfter_eq a b hia hib hT n, ?_⟩, CompareAccum_eq_after a b,
    hCA, hT, fun n => ⟨fastAccumAfter_eq a b hlen hF n, ?_⟩, FastCompareAccum_eq_after a b,
    hFA, hF, _, _, Compare_eq a b hr hia hib hT, sqrtScore_nonneg _ hT,
    FastCompare_eq a b hr hlen hF, sqrtScore_nonneg _ hF⟩
  · exact lt_of_le_of_lt (comparePartial_le a b n) hT
  · exact lt_of_le_of_lt (fastPartial_le a b hlen n) hF

theorem accumulator_exact_witness :
    black2x2.Bounds = white2x2.Bounds ∧ black2x2.Canonical ∧ white2x2.Canonical ∧
    black2x2.Bounds.pixelCount ≤ 2 ^ 31 ∧
    (∀ n, compareAccumAfter black2x2 white2x2 n
        = some (Int.ofNat (comparePartial black2x2 white2x2 n)) ∧
      comparePartial black2x2 white2x2 n < 2 ^ 63) ∧
    CompareAccum black2x2 white2x2
      = compareAccumAfter black2x2 white2x2 (coords black2x2.Bounds).length ∧
    CompareAccum black2x2 white2x2 = some (Int.ofNat (sumSq black2x2 white2x2)) ∧
    sumSq black2x2 white2x2 < 2 ^ 63 ∧
    (∀ n, fastAccumAfter black2x2 white2x2 n
        = some (Int.ofNat (fastPartial black2x2 white2x2 n)) ∧
      fastPartial black2x2 white2x2 n < 2 ^ 63) ∧
    FastCompareAccum black2x2 white2x2 = fastAccumAfter black2x2 white2x2 black2x2.Pix.length ∧
    FastCompareAccum black2x2 white2x2 = some (Int.ofNat (sumSqBytes black2x2 white2x2)) ∧
    sumSqBytes black2x2 white2x2 < 2 ^ 63 ∧
    ∃ s f : Int, Compare black2x2 white2x2 = some (s, none) ∧ 0 ≤ s ∧
      FastCompare black2x2 white2x2 = some (f, none) ∧ 0 ≤ f :=
  ⟨rfl, black2x2_canonical, white2x2_canonical, by decide,
    accumulator_exact black2x2 white2x2 rfl black2x2_canonical white2x2_canonical (by decide)⟩

/-- C15. The two comparators differ on canonical images: for the 1x1 images
with red bytes 1 and 0 and equal other bytes, `Compare` returns
`⌊√((257 ^ 2) >> 2)⌋ = 128` and `FastCompare` returns 1. -/
theorem comparators_differ :
    redOne.Bounds = redZero.Bounds ∧
    redOne.Pix.length = 1 * 1 * 4 ∧ redZero.Pix.length = 1 * 1 * 4 ∧
    redOne.Stride = 4 * 1 ∧ redZero.Stride = 4 * 1 ∧
    CompareAccum redOne redZero = some (Int.ofNat ((257 ^ 2) >>> 2)) ∧
    (257 ^ 2) >>> 2 = 16512 ∧ Nat.sqrt 16512 = 128 ∧
    Compare redOne redZero = some (128, none) ∧
    FastCompareAccum redOne redZero = some 1 ∧
    FastCompare redOne redZero = some (1, none) ∧
    Compare redOne redZero ≠ FastCompare redOne redZero := by
  have hc := red_accum
  have hf := red_fast_accum
  have hC : Compare redOne redZero = some (128, none) := by
    unfold Compare
    rw [if_neg (by decide), hc]
    have h := sqrtScore_eq_sqrt 16512 (by norm_num)
    rw [sqrt_16512] at h
    exact congrArg (fun s => some (s, none)) h
  have hF : FastCompare redOne redZero = some (1, none) := by
    unfold FastCompare
    rw [if_neg (by decide), hf]
    have h := sqrtScore_eq_sqrt 1 (by norm_num)
    rw [Nat.sqrt_one] at h
    exact congrArg (fun s => some (s, none)) h
  refine ⟨rfl, rfl, rfl, rfl, rfl, hc, by decide, sqrt_16512, hC, hf, hF, ?_⟩
  rw [hC, hF]
  decide

/-- C16, the claim fails: the top left pixel of a 2x2 image, taken with
`SubImage`, is an RGBA image with bounds `(0,0)-(1,1)` and a buffer of 16
bytes; `ConvertToRGBA` returns it as it is, 16 bytes for `1 * 1 * 4`, whatever
memory the machine has. -/
theorem convert_canonical_counterexample :
    white2x2.SubImage ⟨⟨0, 0⟩, ⟨1, 1⟩⟩ = some whiteCorner ∧ whiteCorner.InBounds ∧
    ∃ r, (∀ memLimit : Nat, ConvertToRGBA memLimit (Image.rgba whiteCorner) = some r) ∧
      r.Bounds.Dx = 1 ∧ r.Bounds.Dy = 1 ∧ r.Pix.length = 16 ∧
      Int.ofNat r.Pix.length ≠ r.Bounds.Dx * r.Bounds.Dy * 4 :=
  ⟨whiteCorner_subImage, whiteCorner_inBounds, whiteCorner, fun _ => rfl, by decide,
    by decide, rfl, by decide⟩

/-- C16, amended. For an image that is not an RGBA image, with well-formed
bounds whose buffer can be allocated (its length `4 * Dx * Dy` fits an `int`
and is at most `maxAlloc` and at most what the machine can provide), the
buffer `ConvertToRGBA` returns is canonical: its length is width * height * 4
for the dimensions of its bounds, and its stride is 4 * width.  An RGBA image
is returned with its own buffer and bounds. -/
theorem convert_canonical (memLimit : Nat) (bounds : Rectangle)
    (colorAt : Int → Int → Nat × Nat × Nat × Nat) (hf : bounds.Fits memLimit) (p : RGBA) :
    (∃ r, ConvertToRGBA memLimit (Image.other bounds colorAt) = some r ∧
      Int.ofNat r.Pix.length = r.Bounds.Dx * r.Bounds.Dy * 4 ∧ r.Stride = 4 * r.Bounds.Dx) ∧
    (∃ r, ConvertToRGBA memLimit (Image.rgba p) = some r ∧ r.Pix = p.Pix ∧
      r.Stride = p.Stride ∧ r.Bounds = p.Bounds) := by
  refine ⟨?_, p, rfl, rfl, rfl, rfl⟩
  obtain ⟨r, e, er, es, el⟩ := ConvertToRGBA_other memLimit bounds colorAt hf
  have hx : r.Bounds.Dx = bounds.Dx := by
    have h := wrapInt64_range (bounds.Max.X - bounds.Min.X)
    simp only [RGBA.Bounds, er, Rectangle.Dx, Int.sub_zero] at h ⊢
    exact wrapInt64_of_range _ h.1 h.2
  have hy : r.Bounds.Dy = bounds.Dy := by
    have h := wrapInt64_range (bounds.Max.Y - bounds.Min.Y)
    simp only [RGBA.Bounds, er, Rectangle.Dy, Int.sub_zero] at h ⊢
    exact wrapInt64_of_range _ h.1 h.2
  refine ⟨r, e, ?_, ?_⟩
  · rw [hx, hy, el]; ring
  · rw [hx, es]

theorem convert_canonical_witness :
    Rectangle.Fits ⟨⟨3, 5⟩, ⟨5, 8⟩⟩ (2 ^ 30) ∧
    (∃ r, ConvertToRGBA (2 ^ 30) ramp = some r ∧
      Int.ofNat r.Pix.length = r.Bounds.Dx * r.Bounds.Dy * 4 ∧ r.Stride = 4 * r.Bounds.Dx) ∧
    (∃ r, ConvertToRGBA (2 ^ 30) (Image.rgba whiteCorner) = some r ∧
      r.Pix = whiteCorner.Pix ∧ r.Stride = whiteCorner.Stride ∧
      r.Bounds = whiteCorner.Bounds) :=
  ⟨ramp_fits, convert_canonical (2 ^ 30) ⟨⟨3, 5⟩, ⟨5, 8⟩⟩ _ ramp_fits whiteCorner⟩

/-- C17. For all bytes `x` and `y`, `sqDiffUInt8 x y` is `(x - y) ^ 2` taken in
the integers, hence at most `255 ^ 2 = 65025`; this holds also when `x < y`,
where the `uint64` difference wraps to `2 ^ 64 - (y - x)`. -/
theorem sqDiffUInt8_exact :
    ∀ x y : Byte,
      Int.ofNat (sqDiffUInt8 x y) = (Int.ofNat x.val - Int.ofNat y.val) ^ 2 ∧
      sqDiffUInt8 x y ≤ 65025 ∧ 255 ^ 2 = 65025 ∧
      (x.val + 2 ^ 64 - y.val) % 2 ^ 64
        = if x.val < y.val then 2 ^ 64 - (y.val - x.val) else x.val - y.val := by
  intro x y
  have hx := x.isLt
  have hy := y.isLt
  refine ⟨?_, sqDiffUInt8_le x y, by norm_num, ?_⟩
  · rw [sqDiffUInt8_eq]
    simp only [Int.ofNat_eq_coe, Nat.cast_mul]
    rcases Nat.le_total x.val y.val with h | h
    · rw [Nat.dist_eq_sub_of_le h, Nat.cast_sub h]; ring
    · rw [Nat.dist_eq_sub_of_le_right h, Nat.cast_sub h]; ring
  · split <;> omega

/-- C18, the claim fails: `whiteCorner` and `white1x1` are RGBA images with
equal bounds and buffers of 16 and 4 bytes.  `FastCompare whiteCorner
white1x1` panics on `img2.Pix[4]`; in the other order it returns a score and
leaves 12 bytes of `whiteCorner` uncompared. -/
theorem fast_compare_safe_counterexample :
    white2x2.SubImage ⟨⟨0, 0⟩, ⟨1, 1⟩⟩ = some whiteCorner ∧
    whiteCorner.Bounds = white1x1.Bounds ∧
    whiteCorner.Pix.length = 16 ∧ white1x1.Pix.length = 4 ∧
    whiteCorner.Pix[4]? = some 255 ∧ white1x1.Pix[4]? = none ∧
    FastCompare whiteCorner white1x1 = none ∧
    FastCompare white1x1 whiteCorner = some (0, none) := by
  refine ⟨whiteCorner_subImage, rfl, rfl, rfl, by decide, by decide, corner_fast_panic, ?_⟩
  have hf := corner_fast_accum
  unfold FastCompare
  rw [if_neg (by decide), hf]
  exact congrArg (fun s => some (s, none)) sqrtScore_zero

/-- C18, amended. For two canonical RGBA buffers with equal bounds (each
`Pix` of length width * height * 4) the buffers have the same length, every
index of `a.Pix` is an index of `b.Pix`, and `FastCompare` returns a score
without error. -/
theorem fast_compare_safe (a b : RGBA) (hr : a.Bounds = b.Bounds)
    (hla : Int.ofNat a.Pix.length = a.Bounds.Dx * a.Bounds.Dy * 4)
    (hlb : Int.ofNat b.Pix.length = b.Bounds.Dx * b.Bounds.Dy * 4) :
    a.Pix.length = b.Pix.length ∧
    (∀ i, i < a.Pix.length → ∃ x y, a.Pix[i]? = some x ∧ b.Pix[i]? = some y) ∧
    ∃ s, FastCompare a b = some (s, none) := by
  have hlen : a.Pix.length = b.Pix.length := by
    rw [← hr] at hlb
    exact Int.ofNat_inj.1 (hla.trans hlb.symm)
  refine ⟨hlen, ?_, ?_⟩
  · intro i hi
    exact ⟨_, _, List.getElem?_eq_getElem hi,
      List.getElem?_eq_getElem (show i < b.Pix.length by omega)⟩
  · refine ⟨sqrtScore (wrapInt64 (Int.ofNat (sumSqBytes a b))), ?_⟩
    unfold FastCompare
    rw [if_neg (by simp [hr]), FastCompareAccum_eq a b hlen]; rfl

theorem fast_compare_safe_witness :
    black2x2.Bounds = white2x2.Bounds ∧
    Int.ofNat black2x2.Pix.length = black2x2.Bounds.Dx * black2x2.Bounds.Dy * 4 ∧
    Int.ofNat white2x2.Pix.length = white2x2.Bounds.Dx * white2x2.Bounds.Dy * 4 ∧
    black2x2.Pix.length = white2x2.Pix.length ∧
    (∀ i, i < black2x2.Pix.length →
      ∃ x y, black2x2.Pix[i]? = some x ∧ white2x2.Pix[i]? = some y) ∧
    ∃ s, FastCompare black2x2 white2x2 = some (s, none) :=
  ⟨rfl, by decide, by decide,
    fast_compare_safe black2x2 white2x2 rfl (by decide) (by decide)⟩

/-- C19, the claim fails: an RGBA image of 2x2 pixels whose buffer holds one
pixel only has equal bounds with itself, at most `2 ^ 31` pixels and, compared
with itself, the same bytes at every coordinate; `Compare` panics on it and
returns no score, so the equivalence with the score 0 does not hold. -/
theorem compare_zero_iff_counterexample :
    truncated2x2.Bounds = truncated2x2.Bounds ∧
    truncated2x2.Bounds.pixelCount ≤ 2 ^ 31 ∧
    truncated2x2.Pix = truncated2x2.Pix ∧
    (∀ x y : Int, Point.In ⟨x, y⟩ truncated2x2.Bounds = true →
      truncated2x2.At x y = truncated2x2.At x y) ∧
    (∀ s e, Compare truncated2x2 truncated2x2 ≠ some (s, e)) ∧
    ¬ (Compare truncated2x2 truncated2x2 = some (0, none) ↔
      ∀ x y : Int, Point.In ⟨x, y⟩ truncated2x2.Bounds = true →
        truncated2x2.At x y = truncated2x2.At x y) := by
  have h : ∀ r, Compare truncated2x2 truncated2x2 ≠ some r := by
    intro r; rw [Compare_truncated2x2]; exact Option.noConfusion
  exact ⟨rfl, by decide, rfl, fun _ _ _ => rfl, fun s e => h (s, e),
    fun hiff => h _ (hiff.mpr fun _ _ _ => rfl)⟩

/-- C19, amended. For two well-formed RGBA images with equal bounds and at most
`2 ^ 31` pixels, `Compare` returns the score 0 exactly when the two images have
the same four bytes at every coordinate of the bounds.  The 16-bit channel
values are 257 times the bytes, and two different bytes contribute at least
`(257 ^ 2) >> 2 = 16512`, although `sqDiff 0 1 = 0`. -/
theorem compare_zero_iff (a b : RGBA) (hr : a.Bounds = b.Bounds) (ha : a.InBounds)
    (hb : b.InBounds) (hn : a.Bounds.pixelCount ≤ 2 ^ 31) :
    (Compare a b = some (0, none) ↔
      ∀ x y : Int, Point.In ⟨x, y⟩ a.Bounds = true → a.At x y = b.At x y) ∧
    (∃ s, Compare a b = some (s, none)) ∧
    (∀ u : Byte, widen u = 257 * u.val) ∧
    (∀ u v : Byte, u ≠ v → 16512 ≤ sqDiff (widen u) (widen v)) ∧
    (257 ^ 2) >>> 2 = 16512 ∧ sqDiff 0 1 = 0 := by
  have hT := sumSq_lt_of_pixelCount a b hn
  have hC := Compare_eq a b hr ha hb hT
  refine ⟨?_, ⟨_, hC⟩, widen_eq, sqDiff_widen_ge, by decide, by decide⟩
  have hAt : (∀ x y : Int, Point.In ⟨x, y⟩ a.Bounds = true → a.At x y = b.At x y) ↔
      ∀ x y : Int, Point.In ⟨x, y⟩ a.Rect = true → a.colorAt x y = b.colorAt x y := by
    constructor
    · intro h x y hin
      have := h x y hin
      rw [At_eq_colorAt a ha, At_eq_colorAt b hb] at this
      exact Option.some.inj this
    · intro h x y hin
      rw [At_eq_colorAt a ha, At_eq_colorAt b hb, h x y hin]
  rw [hAt, ← sumSq_eq_zero, hC, ← sqrtScore_eq_zero _ hT]
  constructor
  · intro h
    have := Option.some.inj h
    exact congrArg Prod.fst this
  · intro h
    rw [h]

theorem compare_zero_iff_witness :
    black2x2.Bounds = white2x2.Bounds ∧ black2x2.InBounds ∧ white2x2.InBounds ∧
    black2x2.Bounds.pixelCount ≤ 2 ^ 31 ∧
    (Compare black2x2 white2x2 = some (0, none) ↔
      ∀ x y : Int, Point.In ⟨x, y⟩ black2x2.Bounds = true →
        black2x2.At x y = white2x2.At x y) ∧
    (∃ s, Compare black2x2 white2x2 = some (s, none)) ∧
    (∀ u : Byte, widen u = 257 * u.val) ∧
    (∀ u v : Byte, u ≠ v → 16512 ≤ sqDiff (widen u) (widen v)) ∧
    (257 ^ 2) >>> 2 = 16512 ∧ sqDiff 0 1 = 0 :=
  ⟨rfl, black2x2_inBounds, white2x2_inBounds, by decide,
    compare_zero_iff black2x2 white2x2 rfl black2x2_inBounds white2x2_inBounds (by decide)⟩

end Polygen
